import Mathlib

/-!
Shallow embedding of the cursor / zipper subsystem of the `jed` JSON viewer
(`src/cursor.rs`, value model from `src/jq/jv.rs`).

Modelling conventions:
* `JV` is the immutable JSON value tree.  The `f64` payload of numbers is
  modelled opaquely as `Int` (no claim computes with numeric values) and
  strings as `String`.
* The live object iterator stored in an object frame (`Box<dyn
  ExactSizeIterator<Item = (String, JV)>>`, always positioned just after the
  frame's index) is modelled as the suffix list of entries it has yet to
  yield.
* The Rust frame stack is a `Vec` pushed/popped at its end; our list `frames`
  keeps the stack top at the HEAD, so Rust `push`/`pop` become `cons` /
  head-pattern-matching, and `Cursor::to_path` (which reads the Vec front to
  back, i.e. bottom to top) reverses the list.
* Functions that can hit a Rust `panic` return `Option` (`none` models the
  panic) or, where noted, a junk value on the unreachable branch.
-/

namespace Jed

inductive JV where
  | null
  | bool (b : Bool)
  | number (x : Int)
  | string (s : String)
  | array (xs : List JV)
  | object (entries : List (String × JV))

mutual

def JV.decEq : (a b : JV) → Decidable (a = b)
  | .null, .null => isTrue rfl
  | .null, .bool _ => isFalse nofun
  | .null, .number _ => isFalse nofun
  | .null, .string _ => isFalse nofun
  | .null, .array _ => isFalse nofun
  | .null, .object _ => isFalse nofun
  | .bool _, .null => isFalse nofun
  | .bool x, .bool y =>
    match Bool.decEq x y with
    | isTrue h => isTrue (by rw [h])
    | isFalse h => isFalse fun hh => h (by injection hh)
  | .bool _, .number _ => isFalse nofun
  | .bool _, .string _ => isFalse nofun
  | .bool _, .array _ => isFalse nofun
  | .bool _, .object _ => isFalse nofun
  | .number _, .null => isFalse nofun
  | .number _, .bool _ => isFalse nofun
  | .number x, .number y =>
    match Int.decEq x y with
    | isTrue h => isTrue (by rw [h])
    | isFalse h => isFalse fun hh => h (by injection hh)
  | .number _, .string _ => isFalse nofun
  | .number _, .array _ => isFalse nofun
  | .number _, .object _ => isFalse nofun
  | .string _, .null => isFalse nofun
  | .string _, .bool _ => isFalse nofun
  | .string _, .number _ => isFalse nofun
  | .string x, .string y =>
    match String.decEq x y with
    | isTrue h => isTrue (by rw [h])
    | isFalse h => isFalse fun hh => h (by injection hh)
  | .string _, .array _ => isFalse nofun
  | .string _, .object _ => isFalse nofun
  | .array _, .null => isFalse nofun
  | .array _, .bool _ => isFalse nofun
  | .array _, .number _ => isFalse nofun
  | .array _, .string _ => isFalse nofun
  | .array xs, .array ys =>
    match JV.decEqList xs ys with
    | isTrue h => isTrue (by rw [h])
    | isFalse h => isFalse fun hh => h (by injection hh)
  | .array _, .object _ => isFalse nofun
  | .object _, .null => isFalse nofun
  | .object _, .bool _ => isFalse nofun
  | .object _, .number _ => isFalse nofun
  | .object _, .string _ => isFalse nofun
  | .object _, .array _ => isFalse nofun
  | .object xs, .object ys =>
    match JV.decEqEntries xs ys with
    | isTrue h => isTrue (by rw [h])
    | isFalse h => isFalse fun hh => h (by injection hh)

def JV.decEqList : (xs ys : List JV) → Decidable (xs = ys)
  | [], [] => isTrue rfl
  | [], _ :: _ => isFalse nofun
  | _ :: _, [] => isFalse nofun
  | x :: xs, y :: ys =>
    match JV.decEq x y, JV.decEqList xs ys with
    | isTrue h1, isTrue h2 => isTrue (by rw [h1, h2])
    | isFalse h1, _ => isFalse fun hh => h1 (by injection hh)
    | _, isFalse h2 => isFalse fun hh => h2 (by injection hh)

def JV.decEqEntries : (xs ys : List (String × JV)) → Decidable (xs = ys)
  | [], [] => isTrue rfl
  | [], _ :: _ => isFalse nofun
  | _ :: _, [] => isFalse nofun
  | (k, v) :: xs, (k2, v2) :: ys =>
    match String.decEq k k2, JV.decEq v v2, JV.decEqEntries xs ys with
    | isTrue h0, isTrue h1, isTrue h2 => isTrue (by rw [h0, h1, h2])
    | isFalse h0, _, _ =>
      isFalse fun hh => h0 (congrArg (fun l => (l.headD ("", JV.null)).1) hh)
    | _, isFalse h1, _ =>
      isFalse fun hh => h1 (congrArg (fun l => (l.headD ("", JV.null)).2) hh)
    | _, _, isFalse h2 => isFalse fun hh => h2 (by injection hh)

end

instance : DecidableEq JV := JV.decEq

/-- Scalar (leaf) test: everything except arrays and objects. -/
def JV.isScalar : JV → Bool
  | .array _ => false
  | .object _ => false
  | _ => true

inductive FocusPosition where
  | Start
  | Value
  | End
deriving DecidableEq

/-- `FocusPosition::starting`: position for the first rendered line of a value. -/
def FocusPosition.starting : JV → FocusPosition
  | .array _ => .Start
  | .object _ => .Start
  | _ => .Value

/-- `FocusPosition::ending`: position for the last rendered line of a value. -/
def FocusPosition.ending : JV → FocusPosition
  | .array _ => .End
  | .object _ => .End
  | _ => .Value

/-- Rank of a `FocusPosition` in source declaration order (derived `Ord`). -/
def FocusPosition.toNat : FocusPosition → Nat
  | .Start => 0
  | .Value => 1
  | .End => 2

/-- Derived `Ord` on `FocusPosition` follows declaration order Start < Value < End. -/
def FocusPosition.cmp (a b : FocusPosition) : Ordering :=
  compare a.toNat b.toNat

inductive CursorFrame where
  | Array (index : Nat) (json : List JV)
  | Object (index : Nat) (key : String) (json : List (String × JV))
      (iterator : List (String × JV))
deriving DecidableEq

/-- `CursorFrame::index`. -/
def CursorFrame.index : CursorFrame → Nat
  | .Array i _ => i
  | .Object i _ _ _ => i

/-- Fold-set model: a Rust `HashSet<(usize, Vec<usize>)>` is modelled as a
list of keys, membership via `List.contains`. -/
abbrev FoldSet := List (Nat × List Nat)

/-- Result triple of the frame helpers: optional frame to keep pushed, new
focus, new focus position. -/
abbrev StepResult := Option CursorFrame × JV × FocusPosition

/-- `open_container` (src/cursor.rs): enter a container at its first child.
The source panics on a leaf; that branch returns a junk value here and is
unreachable for well-formed cursors. -/
def open_container : JV → StepResult
  | JV.array arr =>
    match arr with
    | [] => (none, JV.array arr, FocusPosition.End)
    | child :: _ =>
      (some (CursorFrame.Array 0 arr), child, FocusPosition.starting child)
  | JV.object entries =>
    match entries with
    | [] => (none, JV.object entries, FocusPosition.End)
    | (key, child) :: rest =>
      (some (CursorFrame.Object 0 key entries rest), child,
        FocusPosition.starting child)
  | v => (none, v, FocusPosition.Value)

/-- `open_container_end` (src/cursor.rs): enter a container at its last child.
The leaf branch (source panic) and the impossible failed-index branch return
junk values, unreachable for well-formed cursors. -/
def open_container_end : JV → StepResult
  | JV.array arr =>
    if arr.isEmpty then (none, JV.array arr, FocusPosition.Start)
    else
      match arr[arr.length - 1]? with
      | some child =>
        (some (CursorFrame.Array (arr.length - 1) arr), child,
          FocusPosition.ending child)
      | none => (none, JV.array arr, FocusPosition.Start)
  | JV.object entries =>
    match entries.getLast? with
    | none => (none, JV.object entries, FocusPosition.Start)
    | some (key, child) =>
      (some (CursorFrame.Object (entries.length - 1) key entries []), child,
        FocusPosition.ending child)
  | v => (none, v, FocusPosition.Value)

/-- `CursorFrame::advance`: step to the next sibling, or close the container
(no frame, container itself, End) when the children are exhausted. -/
def CursorFrame.advance : CursorFrame → StepResult
  | .Array index json =>
    match json[index + 1]? with
    | none => (none, JV.array json, FocusPosition.End)
    | some child =>
      (some (.Array (index + 1) json), child, FocusPosition.starting child)
  | .Object index _ json iterator =>
    match iterator with
    | [] => (none, JV.object json, FocusPosition.End)
    | (key, child) :: it =>
      (some (.Object (index + 1) key json it), child,
        FocusPosition.starting child)

/-- `CursorFrame::regress`: step to the previous sibling, or re-open the
container at its Start when the index underflows.  The object branch
re-derives a fresh iterator and advances it past the target index
(`iterator.nth(index)` leaves the iterator positioned after `index`).  The
impossible missing-child branches (source `expect` panics) return junk. -/
def CursorFrame.regress : CursorFrame → StepResult
  | .Array index json =>
    match index with
    | 0 => (none, JV.array json, FocusPosition.Start)
    | i + 1 =>
      match json[i]? with
      | some child => (some (.Array i json), child, FocusPosition.ending child)
      | none => (none, JV.array json, FocusPosition.Start)
  | .Object index _ json _ =>
    match index with
    | 0 => (none, JV.object json, FocusPosition.Start)
    | i + 1 =>
      match json[i]? with
      | some (key, child) =>
        (some (.Object i key json (json.drop (i + 1))), child,
          FocusPosition.ending child)
      | none => (none, JV.object json, FocusPosition.Start)

structure Cursor where
  jsons : List JV
  top_index : Nat
  frames : List CursorFrame
  focus : JV
  focus_position : FocusPosition
deriving DecidableEq

structure Path where
  top_index : Nat
  frames : List Nat
  focus_position : FocusPosition
deriving DecidableEq

/-- `Path::strip_position`: the fold key of a path. -/
def Path.strip_position (p : Path) : Nat × List Nat :=
  (p.top_index, p.frames)

/-- Push an optional frame onto the stack (`if let Some(f) = ... push(f)`). -/
def pushFrame : Option CursorFrame → List CursorFrame → List CursorFrame
  | none, fs => fs
  | some f, fs => f :: fs

/-- `Cursor::new`: focus on the first root, if any. -/
def Cursor.new (jsons : List JV) : Option Cursor :=
  match jsons[0]? with
  | none => none
  | some focus =>
    some ⟨jsons, 0, [], focus, FocusPosition.starting focus⟩

/-- `Cursor::to_path`.  The source iterates the frame Vec bottom-to-top; our
stack list is top-first, hence the reverse. -/
def Cursor.to_path (c : Cursor) : Path :=
  ⟨c.top_index, (c.frames.map CursorFrame.index).reverse, c.focus_position⟩

/-- Helper for `Cursor::from_path`: walk the stored child indices
shallow-to-deep, rebuilding each ancestor frame.  `none` models the source's
shape-mismatch panics.  Frames are accumulated top-first (each new frame is
deeper than all accumulated ones). -/
def from_path_go (focus : JV) (indices : List Nat) (acc : List CursorFrame) :
    Option (List CursorFrame × JV) :=
  match indices with
  | [] => some (acc, focus)
  | index :: rest =>
    match focus with
    | JV.array arr =>
      match arr[index]? with
      | some child => from_path_go child rest (CursorFrame.Array index arr :: acc)
      | none => none
    | JV.object entries =>
      match entries[index]? with
      | some (key, child) =>
        from_path_go child rest
          (CursorFrame.Object index key entries (entries.drop (index + 1)) :: acc)
      | none => none
    | _ => none

/-- `Cursor::from_path`: rebuild a cursor over `jsons` from a dehydrated
path.  `none` models the source's panics when the path's shape does not
match `jsons`. -/
def Cursor.from_path (jsons : List JV) (path : Path) : Option Cursor :=
  match jsons[path.top_index]? with
  | none => none
  | some root =>
    match from_path_go root path.frames [] with
    | none => none
    | some (frames, focus) =>
      some ⟨jsons, path.top_index, frames, focus, path.focus_position⟩

/-- `impl Clone for Cursor`: dehydrate to a path and rehydrate. -/
def Cursor.clone (c : Cursor) : Option Cursor :=
  Cursor.from_path c.jsons c.to_path

/-- Line descriptor produced by `Cursor::current_line`.  The `Line` type
itself lives in src/lines.rs which is absent from src/; its fields are as
constructed in `current_line` (content, key, folded, comma, indent), with
`indent: u8` modelled as a `Nat` reduced modulo 256 at the `as u8` cast. -/
inductive LineContent where
  | Null
  | Bool (b : Bool)
  | Number (x : Int)
  | StringContent (s : String)
  | ArrayStart (hint : Nat)
  | ArrayEnd (hint : Nat)
  | ObjectStart (hint : Nat)
  | ObjectEnd (hint : Nat)
deriving DecidableEq

structure Line where
  content : LineContent
  key : Option String
  folded : Bool
  comma : Bool
  indent : Nat
deriving DecidableEq

/-- `Cursor::current_line`.  The illegal (value kind, focus position) pairing
makes the source panic; here it yields a junk `Null` content.  The `as u8`
cast of the indent is modelled by `% 256`. -/
def Cursor.current_line (c : Cursor) (folds : FoldSet) : Line :=
  let content :=
    match c.focus, c.focus_position with
    | JV.object _, FocusPosition.Start => LineContent.ObjectStart 0
    | JV.object _, FocusPosition.End => LineContent.ObjectEnd 0
    | JV.array _, FocusPosition.Start => LineContent.ArrayStart 0
    | JV.array _, FocusPosition.End => LineContent.ArrayEnd 0
    | JV.null, FocusPosition.Value => LineContent.Null
    | JV.bool b, FocusPosition.Value => LineContent.Bool b
    | JV.number x, FocusPosition.Value => LineContent.Number x
    | JV.string s, FocusPosition.Value => LineContent.StringContent s
    | _, _ => LineContent.Null
  let key :=
    match c.focus_position with
    | FocusPosition.End => none
    | _ =>
      match c.frames.head? with
      | none => none
      | some (CursorFrame.Array _ _) => none
      | some (CursorFrame.Object _ key _ _) => some key
  let folded := folds.contains c.to_path.strip_position
  let comma :=
    match c.focus_position with
    | FocusPosition.Start => false
    | _ =>
      match c.frames.head? with
      | none => false
      | some (CursorFrame.Array index json) => !(index == json.length - 1)
      | some (CursorFrame.Object _ _ _ iterator) => !(iterator.length == 0)
  let indent := c.frames.length % 256
  ⟨content, key, folded, comma, indent⟩

/-- `Cursor::advance`.  Returns the stepped cursor, `none` on traversal
exhaustion (the source mutates in place and returns `Option<()>`; on failure
it returns before performing any mutation, which the functional reading
captures by keeping the original cursor). -/
def Cursor.advance (c : Cursor) (folds : FoldSet) : Option Cursor :=
  let is_folded := folds.contains c.to_path.strip_position
  if c.focus_position = FocusPosition.Start ∧ is_folded = false then
    match open_container c.focus with
    | (new_frame, new_focus, new_fp) =>
      some { c with
        frames := pushFrame new_frame c.frames
        focus := new_focus
        focus_position := new_fp }
  else
    match c.frames with
    | [] =>
      match c.jsons[c.top_index + 1]? with
      | none => none
      | some focus =>
        some { c with
          top_index := c.top_index + 1
          focus := focus
          focus_position := FocusPosition.starting focus }
    | frame :: rest =>
      match frame.advance with
      | (new_frame, new_focus, new_fp) =>
        some { c with
          frames := pushFrame new_frame rest
          focus := new_focus
          focus_position := new_fp }

/-- Structural part of `Cursor::regress` (everything before the final fold
check).  `none` covers both exhaustion (first root, `checked_sub` fails) and
the source's out-of-range root indexing panic, the latter unreachable for
well-formed cursors. -/
def Cursor.regress_stepped (c : Cursor) : Option Cursor :=
  if c.focus_position = FocusPosition.End then
    match open_container_end c.focus with
    | (new_frame, new_focus, new_fp) =>
      some { c with
        frames := pushFrame new_frame c.frames
        focus := new_focus
        focus_position := new_fp }
  else
    match c.frames with
    | [] =>
      match c.top_index with
      | 0 => none
      | t + 1 =>
        match c.jsons[t]? with
        | none => none
        | some focus =>
          some { c with
            top_index := t
            focus := focus
            focus_position := FocusPosition.ending focus }
    | frame :: rest =>
      match frame.regress with
      | (new_frame, new_focus, new_fp) =>
        some { c with
          frames := pushFrame new_frame rest
          focus := new_focus
          focus_position := new_fp }

/-- Final fold check of `Cursor::regress`: never land on the End (or inside)
of a folded container as if freshly descended; surface at its Start. -/
def regress_force (folds : FoldSet) (d : Cursor) : Cursor :=
  if folds.contains d.to_path.strip_position then
    { d with focus_position := FocusPosition.Start }
  else d

/-- `Cursor::regress`: the structural step followed by the fold check. -/
def Cursor.regress (c : Cursor) (folds : FoldSet) : Option Cursor :=
  c.regress_stepped.map (regress_force folds)

/-- Frame-index comparison loop of `impl Ord for Path`.  `self_fp` and
`other_fp` are the two paths' focus positions, consulted when one index
sequence is a strict prefix of the other.  The source panics when the
shorter path's focus position is `Value` (paths indexing different jsons);
that branch returns the junk value `Ordering.eq` here. -/
def cmpIndices (self_fp other_fp : FocusPosition) :
    List Nat → List Nat → Ordering
  | x :: xs, y :: ys =>
    match compare x y with
    | Ordering.eq => cmpIndices self_fp other_fp xs ys
    | ord => ord
  | [], _ :: _ =>
    match self_fp with
    | FocusPosition.Start => Ordering.lt
    | FocusPosition.Value => Ordering.eq
    | FocusPosition.End => Ordering.gt
  | _ :: _, [] =>
    match other_fp with
    | FocusPosition.Start => Ordering.gt
    | FocusPosition.Value => Ordering.eq
    | FocusPosition.End => Ordering.lt
  | [], [] => FocusPosition.cmp self_fp other_fp

/-- `impl Ord for Path`: compare `top_index`, then the frame indices via
`cmpIndices`. -/
def Path.cmp (p q : Path) : Ordering :=
  match compare p.top_index q.top_index with
  | Ordering.eq => cmpIndices p.focus_position q.focus_position p.frames q.frames
  | ord => ord

/-- Modelled from the spec: `Line::render` (src/lines.rs, absent from src/)
is the external renderer's textual projection of a line; only its arity
matters to the claims, so it is modelled as the pair of its inputs (the line
and the is-cursor flag computed by `render_lines`). -/
def renderLine (line : Line) (is_cursor : Bool) : Line × Bool :=
  (line, is_cursor)

/-- Rust `PartialEq` on `CursorFrame`: index, container and (for objects)
key; the iterator is excluded. -/
def CursorFrame.rust_eq : CursorFrame → CursorFrame → Bool
  | .Array i a, .Array j b => i == j && a == b
  | .Object i k a _, .Object j k2 b _ => i == j && a == b && k == k2
  | _, _ => false

/-- Rust `PartialEq` on `Cursor` (derived, with `CursorFrame`'s custom
frame equality). -/
def Cursor.rust_eq (a b : Cursor) : Bool :=
  a.jsons == b.jsons && a.top_index == b.top_index
    && (a.frames.length == b.frames.length
        && (a.frames.zip b.frames).all fun p => p.1.rust_eq p.2)
    && a.focus == b.focus && a.focus_position == b.focus_position

/-- Loop body of `Cursor::render_lines`: up to `fuel` further lines, stopping
when `advance` exhausts. -/
def render_lines_go (c : Cursor) (cursor : Option Cursor) (folds : FoldSet) :
    Nat → List (Line × Bool)
  | 0 => []
  | fuel + 1 =>
    match c.advance folds with
    | none => []
    | some c' =>
      renderLine (c'.current_line folds)
          (match cursor with
           | none => false
           | some k => c'.rust_eq k)
        :: render_lines_go c' cursor folds fuel

/-- `Cursor::render_lines`: the line at the current position followed by at
most `line_limit` further lines. -/
def Cursor.render_lines (c : Cursor) (cursor : Option Cursor)
    (folds : FoldSet) (line_limit : Nat) : List (Line × Bool) :=
  renderLine (c.current_line folds)
      (match cursor with
       | none => false
       | some k => c.rust_eq k)
    :: render_lines_go c cursor folds line_limit

/-- Iterated `advance` (n steps). -/
def advanceIter (c : Cursor) (folds : FoldSet) : Nat → Option Cursor
  | 0 => some c
  | n + 1 =>
    match c.advance folds with
    | none => none
    | some c' => advanceIter c' folds n

/-- All lines from the current position onward (`Cursor::lines_from`),
bounded by fuel; with enough fuel this is the whole remaining line sequence. -/
def linesFrom (c : Cursor) (folds : FoldSet) : Nat → List Line
  | 0 => [c.current_line folds]
  | fuel + 1 =>
    c.current_line folds ::
      match c.advance folds with
      | none => []
      | some c' => linesFrom c' folds fuel

/-- Consistency of the frame stack (top first) with a root value: each
frame's container holds the previous level's focus at the stored index, the
stored key is that child's key, and the stored object iterator is exactly
the suffix of entries after the stored index. -/
def chainOk (root : JV) : List CursorFrame → JV → Prop
  | [], focus => root = focus
  | CursorFrame.Array i arr :: rest, focus =>
    arr[i]? = some focus ∧ chainOk root rest (JV.array arr)
  | CursorFrame.Object i k entries it :: rest, focus =>
    entries[i]? = some (k, focus) ∧ it = entries.drop (i + 1)
      ∧ chainOk root rest (JV.object entries)

instance chainOk.dec : (fs : List CursorFrame) → (root focus : JV) →
    Decidable (chainOk root fs focus)
  | [], root, focus => inferInstanceAs (Decidable (root = focus))
  | CursorFrame.Array _ arr :: rest, root, _ =>
    have := chainOk.dec rest root (JV.array arr)
    inferInstanceAs (Decidable (_ ∧ _))
  | CursorFrame.Object _ _ entries _ :: rest, root, _ =>
    have := chainOk.dec rest root (JV.object entries)
    inferInstanceAs (Decidable (_ ∧ _ ∧ _))

/-- Structural invariant of a cursor (spec section 3): the top index is in
range, the frame stack exactly reconstructs the path from the matching root
to the focus, and the focus position is `Value` exactly for scalar focuses. -/
def Cursor.wf (c : Cursor) : Prop :=
  c.top_index < c.jsons.length
    ∧ chainOk (c.jsons.getD c.top_index JV.null) c.frames c.focus
    ∧ (c.focus_position = FocusPosition.Value ↔ c.focus.isScalar = true)

instance (c : Cursor) : Decidable c.wf :=
  inferInstanceAs (Decidable (_ ∧ _ ∧ _))

/-- Resolve a fold key against the roots: the value it names, if any. -/
def nodeAtGo : List Nat → JV → Option JV
  | [], v => some v
  | i :: is, JV.array xs =>
    match xs[i]? with
    | some child => nodeAtGo is child
    | none => none
  | i :: is, JV.object entries =>
    match entries[i]? with
    | some (_, child) => nodeAtGo is child
    | none => none
  | _ :: _, _ => none

def nodeAt (jsons : List JV) (key : Nat × List Nat) : Option JV :=
  match jsons[key.1]? with
  | none => none
  | some root => nodeAtGo key.2 root

/-- A fold set is valid for `jsons` when every key names a container (spec:
folds apply to a container). -/
def foldsOk (jsons : List JV) (folds : FoldSet) : Prop :=
  ∀ k ∈ folds, (nodeAt jsons k).map JV.isScalar = some false

instance (jsons : List JV) (folds : FoldSet) : Decidable (foldsOk jsons folds) :=
  inferInstanceAs (Decidable (∀ k ∈ folds, _))

/-- A cursor position is visible under a fold set when no strict ancestor of
its path is folded and the cursor does not sit on the End line of a folded
container.  These are exactly the positions the traversal can reach while
the fold set is active. -/
def Cursor.visible (c : Cursor) (folds : FoldSet) : Prop :=
  (∀ k, k < c.to_path.frames.length →
      folds.contains (c.top_index, c.to_path.frames.take k) = false)
    ∧ ¬(folds.contains c.to_path.strip_position = true
          ∧ c.focus_position = FocusPosition.End)

instance (c : Cursor) (folds : FoldSet) : Decidable (c.visible folds) :=
  inferInstanceAs (Decidable (_ ∧ _))

/-- Cursors reachable from `Cursor::new` by `advance` alone with an empty
fold set (the hypothesis of the path round-trip property). -/
inductive ReachesAdv (jsons : List JV) : Cursor → Prop
  | base (c : Cursor) : Cursor.new jsons = some c → ReachesAdv jsons c
  | step (c c' : Cursor) : ReachesAdv jsons c → c.advance [] = some c' →
      ReachesAdv jsons c'

/-- Cursors reachable from `Cursor::new` (or a path round trip of such a
cursor) by any sequence of `advance` and `regress` calls, each with a fold
set whose keys name containers. -/
inductive Reaches : Cursor → Prop
  | base (jsons : List JV) (c : Cursor) : Cursor.new jsons = some c → Reaches c
  | adv (c c' : Cursor) (folds : FoldSet) : Reaches c →
      foldsOk c.jsons folds → c.advance folds = some c' → Reaches c'
  | reg (c c' : Cursor) (folds : FoldSet) : Reaches c →
      foldsOk c.jsons folds → c.regress folds = some c' → Reaches c'
  | path (c c' : Cursor) : Reaches c →
      Cursor.from_path c.jsons c.to_path = some c' → Reaches c'

/-! ### Basic lemmas about the embedding -/

@[simp] theorem chainOk_nil (root focus : JV) :
    chainOk root [] focus ↔ root = focus := Iff.rfl

@[simp] theorem chainOk_cons_array (root focus : JV) (i : Nat) (arr : List JV)
    (rest : List CursorFrame) :
    chainOk root (CursorFrame.Array i arr :: rest) focus ↔
      (arr[i]? = some focus ∧ chainOk root rest (JV.array arr)) := Iff.rfl

@[simp] theorem chainOk_cons_object (root focus : JV) (i : Nat) (k : String)
    (entries it : List (String × JV)) (rest : List CursorFrame) :
    chainOk root (CursorFrame.Object i k entries it :: rest) focus ↔
      (entries[i]? = some (k, focus) ∧ it = entries.drop (i + 1)
        ∧ chainOk root rest (JV.object entries)) := Iff.rfl

theorem compare_self_nat (n : Nat) : compare n n = Ordering.eq :=
  Nat.compare_eq_eq.mpr rfl

theorem compare_succ_nat (n : Nat) : compare n (n + 1) = Ordering.lt :=
  Nat.compare_eq_lt.mpr (Nat.lt_succ_self n)

theorem compare_succ_nat' (n : Nat) : compare (n + 1) n = Ordering.gt :=
  Nat.compare_eq_gt.mpr (Nat.lt_succ_self n)

theorem cmpIndices_same (p q : FocusPosition) (xs : List Nat) :
    cmpIndices p q xs xs = FocusPosition.cmp p q := by
  induction xs with
  | nil => rfl
  | cons x xs ih => simp [cmpIndices, compare_self_nat, ih]

theorem cmpIndices_self_start (q : FocusPosition) (xs : List Nat) (y : Nat)
    (ys : List Nat) :
    cmpIndices FocusPosition.Start q xs (xs ++ y :: ys) = Ordering.lt := by
  induction xs with
  | nil => rfl
  | cons x xs ih => simpa [cmpIndices, compare_self_nat] using ih

theorem cmpIndices_self_end (q : FocusPosition) (xs : List Nat) (y : Nat)
    (ys : List Nat) :
    cmpIndices FocusPosition.End q xs (xs ++ y :: ys) = Ordering.gt := by
  induction xs with
  | nil => rfl
  | cons x xs ih => simpa [cmpIndices, compare_self_nat] using ih

theorem cmpIndices_other_start (p : FocusPosition) (xs : List Nat) (y : Nat)
    (ys : List Nat) :
    cmpIndices p FocusPosition.Start (xs ++ y :: ys) xs = Ordering.gt := by
  induction xs with
  | nil => rfl
  | cons x xs ih => simpa [cmpIndices, compare_self_nat] using ih

theorem cmpIndices_other_end (p : FocusPosition) (xs : List Nat) (y : Nat)
    (ys : List Nat) :
    cmpIndices p FocusPosition.End (xs ++ y :: ys) xs = Ordering.lt := by
  induction xs with
  | nil => rfl
  | cons x xs ih => simpa [cmpIndices, compare_self_nat] using ih

theorem cmpIndices_diff (p q : FocusPosition) (xs : List Nat) (a : Nat)
    (as : List Nat) (b : Nat) (bs : List Nat) (h : compare a b ≠ Ordering.eq) :
    cmpIndices p q (xs ++ a :: as) (xs ++ b :: bs) = compare a b := by
  induction xs with
  | nil => simp only [List.nil_append, cmpIndices]
  | cons x xs ih => simpa [cmpIndices, compare_self_nat] using ih

theorem Path.cmp_same_top (t : Nat) (fs fs' : List Nat)
    (fp fp' : FocusPosition) :
    Path.cmp ⟨t, fs, fp⟩ ⟨t, fs', fp'⟩ = cmpIndices fp fp' fs fs' := by
  simp [Path.cmp, compare_self_nat]

@[simp] theorem to_path_mk (j : List JV) (t : Nat) (fs : List CursorFrame)
    (fo : JV) (fp : FocusPosition) :
    Cursor.to_path ⟨j, t, fs, fo, fp⟩ =
      ⟨t, (fs.map CursorFrame.index).reverse, fp⟩ := rfl

/-! ### Path monotonicity of advance and regress -/

theorem advance_pop_gt (jsons : List JV) (t : Nat) (frames : List CursorFrame)
    (focus : JV) (fp : FocusPosition) (folds : FoldSet) (c' : Cursor)
    (hcond : ¬(fp = FocusPosition.Start ∧
      folds.contains (Cursor.to_path ⟨jsons, t, frames, focus, fp⟩).strip_position
        = false))
    (h : Cursor.advance ⟨jsons, t, frames, focus, fp⟩ folds = some c') :
    Path.cmp c'.to_path (Cursor.to_path ⟨jsons, t, frames, focus, fp⟩)
      = Ordering.gt := by
  simp only [Cursor.advance, to_path_mk] at h
  rw [if_neg (by simpa [Path.strip_position] using hcond)] at h
  match frames, h with
  | [], h =>
    cases hj : jsons[t + 1]? with
    | none => simp [hj] at h
    | some fo =>
      simp only [hj] at h
      injection h with h
      subst h
      simp [Path.cmp, to_path_mk, compare_succ_nat']
  | CursorFrame.Array i arr :: rest, h =>
    cases hj : arr[i + 1]? with
    | none =>
      simp only [CursorFrame.advance, hj, pushFrame] at h
      injection h with h
      subst h
      simp only [to_path_mk, List.map_cons, List.reverse_cons, CursorFrame.index]
      rw [Path.cmp_same_top]
      exact cmpIndices_self_end fp _ i []
    | some child =>
      simp only [CursorFrame.advance, hj, pushFrame] at h
      injection h with h
      subst h
      simp only [to_path_mk, List.map_cons, List.reverse_cons, CursorFrame.index]
      rw [Path.cmp_same_top, cmpIndices_diff _ _ _ _ _ _ _
        (by simp [compare_succ_nat'])]
      exact compare_succ_nat' i
  | CursorFrame.Object i k kvs it :: rest, h =>
    cases it with
    | nil =>
      simp only [CursorFrame.advance, pushFrame] at h
      injection h with h
      subst h
      simp only [to_path_mk, List.map_cons, List.reverse_cons, CursorFrame.index]
      rw [Path.cmp_same_top]
      exact cmpIndices_self_end fp _ i []
    | cons e it' =>
      simp only [CursorFrame.advance, pushFrame] at h
      injection h with h
      subst h
      simp only [to_path_mk, List.map_cons, List.reverse_cons, CursorFrame.index]
      rw [Path.cmp_same_top, cmpIndices_diff _ _ _ _ _ _ _
        (by simp [compare_succ_nat'])]
      exact compare_succ_nat' i

theorem advance_path_gt (c c' : Cursor) (folds : FoldSet)
    (h : c.advance folds = some c') :
    Path.cmp c'.to_path c.to_path = Ordering.gt := by
  obtain ⟨jsons, t, frames, focus, fp⟩ := c
  by_cases hcond : fp = FocusPosition.Start ∧
      folds.contains (Cursor.to_path ⟨jsons, t, frames, focus, fp⟩).strip_position
        = false
  · obtain ⟨hfp, hfold⟩ := hcond
    subst hfp
    simp only [Cursor.advance, to_path_mk] at h
    rw [if_pos ⟨trivial, hfold⟩] at h
    match focus with
    | JV.array arr =>
      cases arr with
      | nil =>
        simp only [open_container, pushFrame] at h
        injection h with h
        subst h
        simp only [to_path_mk]
        rw [Path.cmp_same_top, cmpIndices_same]
        rfl
      | cons x arr' =>
        simp only [open_container, pushFrame] at h
        injection h with h
        subst h
        simp only [to_path_mk, List.map_cons, List.reverse_cons, CursorFrame.index]
        rw [Path.cmp_same_top]
        exact cmpIndices_other_start _ _ 0 []
    | JV.object entries =>
      cases entries with
      | nil =>
        simp only [open_container, pushFrame] at h
        injection h with h
        subst h
        simp only [to_path_mk]
        rw [Path.cmp_same_top, cmpIndices_same]
        rfl
      | cons e entries' =>
        simp only [open_container, pushFrame] at h
        injection h with h
        subst h
        simp only [to_path_mk, List.map_cons, List.reverse_cons, CursorFrame.index]
        rw [Path.cmp_same_top]
        exact cmpIndices_other_start _ _ 0 []
    | JV.null =>
      simp only [open_container, pushFrame] at h
      injection h with h
      subst h
      simp only [to_path_mk]
      rw [Path.cmp_same_top, cmpIndices_same]
      rfl
    | JV.bool b =>
      simp only [open_container, pushFrame] at h
      injection h with h
      subst h
      simp only [to_path_mk]
      rw [Path.cmp_same_top, cmpIndices_same]
      rfl
    | JV.number x =>
      simp only [open_container, pushFrame] at h
      injection h with h
      subst h
      simp only [to_path_mk]
      rw [Path.cmp_same_top, cmpIndices_same]
      rfl
    | JV.string s =>
      simp only [open_container, pushFrame] at h
      injection h with h
      subst h
      simp only [to_path_mk]
      rw [Path.cmp_same_top, cmpIndices_same]
      rfl
  · exact advance_pop_gt jsons t frames focus fp folds c' hcond h

theorem regress_force_jsons (folds : FoldSet) (d : Cursor) :
    (regress_force folds d).jsons = d.jsons := by
  unfold regress_force; split <;> rfl

theorem regress_force_top (folds : FoldSet) (d : Cursor) :
    (regress_force folds d).top_index = d.top_index := by
  unfold regress_force; split <;> rfl

theorem regress_force_frames (folds : FoldSet) (d : Cursor) :
    (regress_force folds d).frames = d.frames := by
  unfold regress_force; split <;> rfl

theorem regress_force_keep_start (folds : FoldSet) (d : Cursor)
    (h : d.focus_position = FocusPosition.Start) :
    (regress_force folds d).focus_position = FocusPosition.Start := by
  unfold regress_force; split <;> simpa

theorem regress_force_not_end (folds : FoldSet) (d : Cursor)
    (h : d.focus_position ≠ FocusPosition.End) :
    (regress_force folds d).focus_position ≠ FocusPosition.End := by
  unfold regress_force; split
  · simp
  · simpa

theorem regress_pop_lt (jsons : List JV) (t : Nat) (frames : List CursorFrame)
    (focus : JV) (fp : FocusPosition) (folds : FoldSet) (d0 : Cursor)
    (hfp : ¬(fp = FocusPosition.End))
    (hst : Cursor.regress_stepped ⟨jsons, t, frames, focus, fp⟩ = some d0) :
    Path.cmp (regress_force folds d0).to_path
      (Cursor.to_path ⟨jsons, t, frames, focus, fp⟩) = Ordering.lt := by
  simp only [Cursor.regress_stepped] at hst
  rw [if_neg hfp] at hst
  match frames, hst with
  | [], hst =>
    match t, hst with
    | 0, hst => simp at hst
    | t' + 1, hst =>
      cases hj : jsons[t']? with
      | none => simp [hj] at hst
      | some fo =>
        simp only [hj] at hst
        injection hst with hst
        subst hst
        unfold regress_force
        split <;> simp [Path.cmp, to_path_mk, compare_succ_nat]
  | CursorFrame.Array i arr :: rest, hst =>
    match i, hst with
    | 0, hst =>
      simp only [CursorFrame.regress, pushFrame] at hst
      injection hst with hst
      subst hst
      unfold regress_force
      split <;>
        · simp only [to_path_mk, List.map_cons, List.reverse_cons,
            CursorFrame.index]
          rw [Path.cmp_same_top]
          exact cmpIndices_self_start _ _ 0 []
    | i' + 1, hst =>
      cases hg : arr[i']? with
      | some child =>
        simp only [CursorFrame.regress, hg, pushFrame] at hst
        injection hst with hst
        subst hst
        unfold regress_force
        split <;>
          · simp only [to_path_mk, List.map_cons, List.reverse_cons,
              CursorFrame.index]
            rw [Path.cmp_same_top, cmpIndices_diff _ _ _ _ _ _ _
              (by simp [compare_succ_nat])]
            exact compare_succ_nat i'
      | none =>
        simp only [CursorFrame.regress, hg, pushFrame] at hst
        injection hst with hst
        subst hst
        unfold regress_force
        split <;>
          · simp only [to_path_mk, List.map_cons, List.reverse_cons,
              CursorFrame.index]
            rw [Path.cmp_same_top]
            exact cmpIndices_self_start _ _ (i' + 1) []
  | CursorFrame.Object i k kvs it :: rest, hst =>
    match i, hst with
    | 0, hst =>
      simp only [CursorFrame.regress, pushFrame] at hst
      injection hst with hst
      subst hst
      unfold regress_force
      split <;>
        · simp only [to_path_mk, List.map_cons, List.reverse_cons,
            CursorFrame.index]
          rw [Path.cmp_same_top]
          exact cmpIndices_self_start _ _ 0 []
    | i' + 1, hst =>
      cases hg : kvs[i']? with
      | some e =>
        obtain ⟨k2, child⟩ := e
        simp only [CursorFrame.regress, hg, pushFrame] at hst
        injection hst with hst
        subst hst
        unfold regress_force
        split <;>
          · simp only [to_path_mk, List.map_cons, List.reverse_cons,
              CursorFrame.index]
            rw [Path.cmp_same_top, cmpIndices_diff _ _ _ _ _ _ _
              (by simp [compare_succ_nat])]
            exact compare_succ_nat i'
      | none =>
        simp only [CursorFrame.regress, hg, pushFrame] at hst
        injection hst with hst
        subst hst
        unfold regress_force
        split <;>
          · simp only [to_path_mk, List.map_cons, List.reverse_cons,
              CursorFrame.index]
            rw [Path.cmp_same_top]
            exact cmpIndices_self_start _ _ (i' + 1) []

theorem regress_path_lt (c d : Cursor) (folds : FoldSet)
    (h : c.regress folds = some d) :
    Path.cmp d.to_path c.to_path = Ordering.lt := by
  obtain ⟨d0, hst, hd⟩ := Option.map_eq_some'.mp h
  subst hd
  obtain ⟨jsons, t, frames, focus, fp⟩ := c
  cases fp with
  | End =>
    simp only [Cursor.regress_stepped, if_true] at hst
    match focus, hst with
    | JV.array arr, hst =>
      by_cases he : arr.isEmpty
      · simp only [open_container_end, he, if_true, pushFrame] at hst
        injection hst with hst
        subst hst
        unfold regress_force
        split <;>
          · simp only [to_path_mk]
            rw [Path.cmp_same_top, cmpIndices_same]
            rfl
      · simp only [open_container_end, he, if_false, Bool.false_eq_true] at hst
        cases hg : arr[arr.length - 1]? with
        | none =>
          simp only [hg, pushFrame] at hst
          injection hst with hst
          subst hst
          unfold regress_force
          split <;>
            · simp only [to_path_mk]
              rw [Path.cmp_same_top, cmpIndices_same]
              rfl
        | some child =>
          simp only [hg, pushFrame] at hst
          injection hst with hst
          subst hst
          unfold regress_force
          split <;>
            · simp only [to_path_mk, List.map_cons, List.reverse_cons,
                CursorFrame.index]
              rw [Path.cmp_same_top]
              exact cmpIndices_other_end _ _ _ []
    | JV.object entries, hst =>
      cases hg : entries.getLast? with
      | none =>
        simp only [open_container_end, hg, pushFrame] at hst
        injection hst with hst
        subst hst
        unfold regress_force
        split <;>
          · simp only [to_path_mk]
            rw [Path.cmp_same_top, cmpIndices_same]
            rfl
      | some e =>
        simp only [open_container_end, hg, pushFrame] at hst
        injection hst with hst
        subst hst
        unfold regress_force
        split <;>
          · simp only [to_path_mk, List.map_cons, List.reverse_cons,
              CursorFrame.index]
            rw [Path.cmp_same_top]
            exact cmpIndices_other_end _ _ _ []
    | JV.null, hst =>
      simp only [open_container_end, pushFrame] at hst
      injection hst with hst
      subst hst
      unfold regress_force
      split <;>
        · simp only [to_path_mk]
          rw [Path.cmp_same_top, cmpIndices_same]
          rfl
    | JV.bool b, hst =>
      simp only [open_container_end, pushFrame] at hst
      injection hst with hst
      subst hst
      unfold regress_force
      split <;>
        · simp only [to_path_mk]
          rw [Path.cmp_same_top, cmpIndices_same]
          rfl
    | JV.number x, hst =>
      simp only [open_container_end, pushFrame] at hst
      injection hst with hst
      subst hst
      unfold regress_force
      split <;>
        · simp only [to_path_mk]
          rw [Path.cmp_same_top, cmpIndices_same]
          rfl
    | JV.string s, hst =>
      simp only [open_container_end, pushFrame] at hst
      injection hst with hst
      subst hst
      unfold regress_force
      split <;>
        · simp only [to_path_mk]
          rw [Path.cmp_same_top, cmpIndices_same]
          rfl
  | Start =>
    exact regress_pop_lt jsons t frames focus FocusPosition.Start folds d0
      (by simp) hst
  | Value =>
    exact regress_pop_lt jsons t frames focus FocusPosition.Value folds d0
      (by simp) hst

/-! ### Fold keys, scalars and the frame chain -/

@[simp] theorem strip_to_path_mk (j : List JV) (t : Nat)
    (fs : List CursorFrame) (fo : JV) (fp : FocusPosition) :
    (Cursor.to_path ⟨j, t, fs, fo, fp⟩).strip_position =
      (t, (fs.map CursorFrame.index).reverse) := rfl

theorem nodeAtGo_append (xs ys : List Nat) (root : JV) :
    nodeAtGo (xs ++ ys) root =
      match nodeAtGo xs root with
      | some v => nodeAtGo ys v
      | none => none := by
  induction xs generalizing root with
  | nil => simp [nodeAtGo]
  | cons i is ih =>
    cases root with
    | array arr =>
      simp only [List.cons_append, nodeAtGo]
      cases arr[i]? with
      | none => rfl
      | some child => exact ih child
    | object entries =>
      simp only [List.cons_append, nodeAtGo]
      cases entries[i]? with
      | none => rfl
      | some e => exact ih e.2
    | null => rfl
    | bool b => rfl
    | number x => rfl
    | string s => rfl

/-- The frame chain resolves the cursor's fold key to its focus. -/
theorem chain_nodeAtGo (root focus : JV) (frames : List CursorFrame)
    (hchain : chainOk root frames focus) :
    nodeAtGo ((frames.map CursorFrame.index).reverse) root = some focus := by
  induction frames generalizing focus with
  | nil => simpa [nodeAtGo] using hchain
  | cons f rest ih =>
    cases f with
    | Array i arr =>
      obtain ⟨hget, hrest⟩ := hchain
      simp only [List.map_cons, List.reverse_cons, CursorFrame.index]
      rw [nodeAtGo_append, ih (JV.array arr) hrest]
      simp [nodeAtGo, hget]
    | Object i k kvs it =>
      obtain ⟨hget, -, hrest⟩ := hchain
      simp only [List.map_cons, List.reverse_cons, CursorFrame.index]
      rw [nodeAtGo_append, ih (JV.object kvs) hrest]
      simp [nodeAtGo, hget]

/-- A well-formed cursor's own fold key resolves to its focus. -/
theorem nodeAt_of_wf (c : Cursor) (hwf : c.wf) :
    nodeAt c.jsons c.to_path.strip_position = some c.focus := by
  obtain ⟨jsons, t, frames, focus, fp⟩ := c
  obtain ⟨htop, hchain, -⟩ := hwf
  have htop' : t < jsons.length := htop
  simp only [strip_to_path_mk, nodeAt]
  have hg : jsons[t]? = some (jsons.getD t JV.null) := by
    simp only [List.getD_eq_getElem?_getD]
    cases hx : jsons[t]? with
    | none => exact absurd (List.getElem?_eq_none_iff.mp hx) (by omega)
    | some v => rfl
  rw [hg]
  exact chain_nodeAtGo _ _ _ hchain

/-- With a container-keyed fold set, the position of a well-formed cursor
with a scalar focus is never folded. -/
theorem not_folded_of_scalar (c : Cursor) (folds : FoldSet) (hwf : c.wf)
    (hfolds : foldsOk c.jsons folds) (hsc : c.focus.isScalar = true) :
    folds.contains c.to_path.strip_position = false := by
  by_contra hcon
  have hcon' : folds.contains c.to_path.strip_position = true := by
    cases h : folds.contains c.to_path.strip_position
    · exact absurd h hcon
    · rfl
  have hmem : c.to_path.strip_position ∈ folds := List.elem_iff.mp hcon'
  have := hfolds _ hmem
  rw [nodeAt_of_wf c hwf] at this
  simp only [Option.map_some'] at this
  injection this with this
  rw [hsc] at this
  cases this

/-! ### Advance and regress are mutually inverse on visible positions -/

theorem starting_ne_end (v : JV) :
    FocusPosition.starting v ≠ FocusPosition.End := by
  cases v <;> simp [FocusPosition.starting]

theorem ending_of_container (v : JV) (h : v.isScalar = false) :
    FocusPosition.ending v = FocusPosition.End := by
  cases v <;> simp_all [FocusPosition.ending, JV.isScalar]

theorem ending_of_scalar (v : JV) (h : v.isScalar = true) :
    FocusPosition.ending v = FocusPosition.Value := by
  cases v <;> simp_all [FocusPosition.ending, JV.isScalar]

theorem getD_getElem? {α : Type} (l : List α) (i : Nat) (d : α)
    (h : i < l.length) : l[i]? = some (l.getD i d) := by
  simp only [List.getD_eq_getElem?_getD]
  cases hx : l[i]? with
  | none => exact absurd (List.getElem?_eq_none_iff.mp hx) (by omega)
  | some v => rfl

theorem getElem?_some_lt {α : Type} (l : List α) (i : Nat) (x : α)
    (h : l[i]? = some x) : i < l.length := by
  by_contra hh
  rw [List.getElem?_eq_none_iff.mpr (by omega)] at h
  cases h

theorem drop_cons_facts {α : Type} (l : List α) (i : Nat) (e : α)
    (tl : List α) (h : l.drop (i + 1) = e :: tl) :
    l[i + 1]? = some e ∧ tl = l.drop (i + 2) := by
  constructor
  · have h0 := List.getElem?_drop l (i + 1) 0
    rw [h] at h0
    simpa using h0.symm
  · have h1 := List.tail_drop l (i + 1)
    rw [h, List.tail_cons] at h1
    exact h1

theorem drop_nil_last {α : Type} (l : List α) (i : Nat) (e : α)
    (hget : l[i]? = some e) (hdrop : l.drop (i + 1) = []) :
    l.length = i + 1 := by
  have h1 := getElem?_some_lt l i e hget
  have h2 := List.drop_eq_nil_iff.mp hdrop
  omega

/-- The else branch of `advance` (taken when the focus position is `Value`,
`End`, or a folded `Start`) does not depend on the focus position. -/
theorem advance_not_open_eq (jsons : List JV) (t : Nat)
    (frames : List CursorFrame) (focus : JV) (fp : FocusPosition)
    (folds : FoldSet)
    (hcond : ¬(fp = FocusPosition.Start ∧
      folds.contains
        (Cursor.to_path ⟨jsons, t, frames, focus, fp⟩).strip_position = false)) :
    Cursor.advance ⟨jsons, t, frames, focus, fp⟩ folds =
      Cursor.advance ⟨jsons, t, frames, focus, FocusPosition.End⟩ folds := by
  simp only [Cursor.advance, strip_to_path_mk]
  rw [if_neg (by simpa [strip_to_path_mk] using hcond), if_neg (by simp)]

/-- After a pop-style advance (from position `End`; by
`advance_not_open_eq` also from `Value` or a folded `Start`), the structural
part of `regress` steps straight back to the popped position. -/
theorem advance_end_then_stepped (jsons : List JV) (t : Nat)
    (frames : List CursorFrame) (focus : JV) (folds : FoldSet) (c' : Cursor)
    (htop : t < jsons.length)
    (hchain : chainOk (jsons.getD t JV.null) frames focus)
    (h : Cursor.advance ⟨jsons, t, frames, focus, FocusPosition.End⟩ folds
      = some c') :
    c'.regress_stepped =
      some ⟨jsons, t, frames, focus, FocusPosition.ending focus⟩ := by
  simp only [Cursor.advance] at h
  rw [if_neg (by simp)] at h
  match frames, hchain, h with
  | [], hchain, h =>
    have hroot : jsons[t]? = some focus := by
      rw [getD_getElem? jsons t JV.null htop, hchain]
    cases hj : jsons[t + 1]? with
    | none => simp [hj] at h
    | some fo =>
      simp only [hj] at h
      injection h with h
      subst h
      simp only [Cursor.regress_stepped]
      rw [if_neg (starting_ne_end fo)]
      simp [hroot]
  | CursorFrame.Array i arr :: rest, hchain, h =>
    obtain ⟨hget, hrest⟩ := hchain
    cases hj : arr[i + 1]? with
    | some child =>
      simp only [CursorFrame.advance, hj, pushFrame] at h
      injection h with h
      subst h
      simp only [Cursor.regress_stepped]
      rw [if_neg (starting_ne_end child)]
      simp [CursorFrame.regress, hget, pushFrame]
    | none =>
      simp only [CursorFrame.advance, hj, pushFrame] at h
      injection h with h
      subst h
      have hlen : arr.length = i + 1 := by
        have h1 := getElem?_some_lt arr i focus hget
        have h2 := List.getElem?_eq_none_iff.mp hj
        omega
      have hne : arr.isEmpty = false := by
        cases arr
        · simp at hget
        · rfl
      simp only [Cursor.regress_stepped, if_true]
      simp only [open_container_end, hne, Bool.false_eq_true, if_false, hlen,
        Nat.add_sub_cancel, hget, pushFrame]
  | CursorFrame.Object i k kvs it :: rest, hchain, h =>
    obtain ⟨hget, hit, hrest⟩ := hchain
    cases hcase : it with
    | cons e it' =>
      obtain ⟨k2, child⟩ := e
      subst hcase
      simp only [CursorFrame.advance, pushFrame] at h
      injection h with h
      subst h
      simp only [Cursor.regress_stepped]
      rw [if_neg (starting_ne_end child)]
      simp [CursorFrame.regress, hget, pushFrame, hit]
    | nil =>
      subst hcase
      simp only [CursorFrame.advance, pushFrame] at h
      injection h with h
      subst h
      have hlen : kvs.length = i + 1 := drop_nil_last kvs i _ hget hit.symm
      have hlast : kvs.getLast? = some (k, focus) := by
        rw [List.getLast?_eq_getElem?, hlen, Nat.add_sub_cancel, hget]
      simp only [Cursor.regress_stepped, if_true]
      simp only [open_container_end, hlast, hlen, Nat.add_sub_cancel, pushFrame]

/-- Advance followed by regress returns to the start, provided the starting
position is not the End line of a folded container (the one position the
traversal can never be at while that fold is active). -/
theorem advance_then_regress (c c' : Cursor) (folds : FoldSet)
    (hwf : c.wf) (hfolds : foldsOk c.jsons folds)
    (hne : ¬(folds.contains c.to_path.strip_position = true
              ∧ c.focus_position = FocusPosition.End))
    (h : c.advance folds = some c') :
    c'.regress folds = some c := by
  have hnf := not_folded_of_scalar c folds hwf hfolds
  obtain ⟨jsons, t, frames, focus, fp⟩ := c
  obtain ⟨htop, hchain, hpos⟩ := hwf
  have htop' : t < jsons.length := htop
  cases fp with
  | Start =>
    by_cases hfold : folds.contains
        (Cursor.to_path ⟨jsons, t, frames, focus,
          FocusPosition.Start⟩).strip_position = false
    · have hsc : focus.isScalar = false := by
        cases hx : focus.isScalar
        · rfl
        · exact absurd (hpos.mpr hx) (by simp)
      simp only [Cursor.advance, strip_to_path_mk] at h
      rw [if_pos ⟨trivial, by simpa [strip_to_path_mk] using hfold⟩] at h
      match focus, hsc with
      | JV.array arr, hsc =>
        cases arr with
        | nil =>
          simp only [open_container, pushFrame] at h
          injection h with h
          subst h
          simp [Cursor.regress, Cursor.regress_stepped, open_container_end,
            pushFrame, regress_force, strip_to_path_mk, hfold]
        | cons x xs =>
          simp only [open_container, pushFrame] at h
          injection h with h
          subst h
          simp [Cursor.regress, Cursor.regress_stepped, starting_ne_end x,
            CursorFrame.regress, pushFrame, regress_force, strip_to_path_mk,
            hfold]
      | JV.object entries, hsc =>
        cases entries with
        | nil =>
          simp only [open_container, pushFrame] at h
          injection h with h
          subst h
          simp [Cursor.regress, Cursor.regress_stepped, open_container_end,
            pushFrame, regress_force, strip_to_path_mk, hfold]
        | cons e entries' =>
          obtain ⟨k, x⟩ := e
          simp only [open_container, pushFrame] at h
          injection h with h
          subst h
          simp [Cursor.regress, Cursor.regress_stepped, starting_ne_end x,
            CursorFrame.regress, pushFrame, regress_force, strip_to_path_mk,
            hfold]
    · have hfold' : folds.contains
          (Cursor.to_path ⟨jsons, t, frames, focus,
            FocusPosition.Start⟩).strip_position = true := by
        cases hx : folds.contains (Cursor.to_path ⟨jsons, t, frames, focus,
            FocusPosition.Start⟩).strip_position
        · exact absurd hx hfold
        · rfl
      rw [advance_not_open_eq jsons t frames focus FocusPosition.Start folds
        (fun hc => hfold hc.2)] at h
      have hst := advance_end_then_stepped jsons t frames focus folds c'
        htop' hchain h
      simp only [Cursor.regress, hst, Option.map_some']
      unfold regress_force
      rw [if_pos (by simpa [strip_to_path_mk] using hfold')]
  | Value =>
    have hsc : focus.isScalar = true := hpos.mp rfl
    have hnff : folds.contains
        (Cursor.to_path ⟨jsons, t, frames, focus,
          FocusPosition.Value⟩).strip_position = false := hnf hsc
    rw [advance_not_open_eq jsons t frames focus FocusPosition.Value folds
      (by simp)] at h
    have hst := advance_end_then_stepped jsons t frames focus folds c'
      htop' hchain h
    have hnffs : folds.contains (t, (frames.map CursorFrame.index).reverse)
        = false := by simpa [strip_to_path_mk] using hnff
    simp only [Cursor.regress, hst, Option.map_some']
    unfold regress_force
    rw [if_neg (by rw [strip_to_path_mk, hnffs]; simp),
      ending_of_scalar focus hsc]
  | End =>
    have hnff : folds.contains
        (Cursor.to_path ⟨jsons, t, frames, focus,
          FocusPosition.End⟩).strip_position = false := by
      cases hx : folds.contains (Cursor.to_path ⟨jsons, t, frames, focus,
          FocusPosition.End⟩).strip_position
      · rfl
      · exact absurd ⟨hx, rfl⟩ hne
    have hsc : focus.isScalar = false := by
      cases hx : focus.isScalar
      · rfl
      · exact absurd (hpos.mpr hx) (by simp)
    have hst := advance_end_then_stepped jsons t frames focus folds c'
      htop' hchain h
    have hnffs : folds.contains (t, (frames.map CursorFrame.index).reverse)
        = false := by simpa [strip_to_path_mk] using hnff
    simp only [Cursor.regress, hst, Option.map_some']
    unfold regress_force
    rw [if_neg (by rw [strip_to_path_mk, hnffs]; simp),
      ending_of_container focus hsc]

theorem ending_ne_start (v : JV) :
    FocusPosition.ending v ≠ FocusPosition.Start := by
  cases v <;> simp [FocusPosition.ending]

theorem drop_of_getElem? {α : Type} (l : List α) (i : Nat) (e : α)
    (h : l[i]? = some e) : l.drop i = e :: l.drop (i + 1) := by
  have hlt := getElem?_some_lt l i e h
  have hg : l[i] = e := by
    have h2 : l[i]? = some l[i] := List.getElem?_eq_getElem hlt
    rw [h2] at h
    injection h
  rw [List.drop_eq_getElem_cons hlt, hg]

/-- Whatever the final fold check of `regress` did, advancing its result is
the same as advancing from the structural result's position taken at `End`
(both always take the non-opening branch of `advance`). -/
theorem advance_force_eq_end (folds : FoldSet) (d0 : Cursor)
    (hfp : d0.focus_position ≠ FocusPosition.Start) :
    (regress_force folds d0).advance folds =
      Cursor.advance ⟨d0.jsons, d0.top_index, d0.frames, d0.focus,
        FocusPosition.End⟩ folds := by
  obtain ⟨j, t, fs, fo, fp⟩ := d0
  unfold regress_force
  by_cases hcf : folds.contains
      (Cursor.to_path ⟨j, t, fs, fo, fp⟩).strip_position = true
  · rw [if_pos hcf]
    refine advance_not_open_eq j t fs fo FocusPosition.Start folds ?_
    intro hc
    obtain ⟨-, hf⟩ := hc
    rw [strip_to_path_mk] at hcf
    rw [strip_to_path_mk] at hf
    rw [hf] at hcf
    cases hcf
  · rw [if_neg hcf]
    exact advance_not_open_eq j t fs fo fp folds (fun hc => hfp hc.1)

theorem starting_of_container (v : JV) (h : v.isScalar = false) :
    FocusPosition.starting v = FocusPosition.Start := by
  cases v <;> simp_all [FocusPosition.starting, JV.isScalar]

theorem starting_of_scalar (v : JV) (h : v.isScalar = true) :
    FocusPosition.starting v = FocusPosition.Value := by
  cases v <;> simp_all [FocusPosition.starting, JV.isScalar]

/-- Pop-style regress (from a `Start` or `Value` position) followed by
advance returns to the start, provided no strict ancestor of the position is
folded. -/
theorem regress_pop_advance (jsons : List JV) (t : Nat)
    (frames : List CursorFrame) (focus : JV) (fp : FocusPosition)
    (folds : FoldSet) (d0 : Cursor)
    (hfp : ¬(fp = FocusPosition.End))
    (hstart : FocusPosition.starting focus = fp)
    (htop : t < jsons.length)
    (hchain : chainOk (jsons.getD t JV.null) frames focus)
    (hpre : ∀ k, k < ((frames.map CursorFrame.index).reverse).length →
      folds.contains (t, ((frames.map CursorFrame.index).reverse).take k)
        = false)
    (hst : Cursor.regress_stepped ⟨jsons, t, frames, focus, fp⟩ = some d0) :
    (regress_force folds d0).advance folds =
      some ⟨jsons, t, frames, focus, fp⟩ := by
  simp only [Cursor.regress_stepped] at hst
  rw [if_neg hfp] at hst
  match frames, hchain, hst with
  | [], hchain, hst =>
    match t, hst with
    | 0, hst => simp at hst
    | t' + 1, hst =>
      have hroot' : jsons[t']? = some (jsons.getD t' JV.null) :=
        getD_getElem? jsons t' JV.null (by omega)
      simp only [hroot'] at hst
      injection hst with hst
      subst hst
      rw [advance_force_eq_end folds _ (ending_ne_start _)]
      simp only [Cursor.advance]
      rw [if_neg (by simp)]
      have hroot : jsons[t' + 1]? = some focus := by
        rw [getD_getElem? jsons (t' + 1) JV.null htop, hchain]
      simp [hroot, hstart]
  | CursorFrame.Array i arr :: rest, hchain, hst =>
    obtain ⟨hget, hrest⟩ := hchain
    match i, hget, hst with
    | 0, hget, hst =>
      simp only [CursorFrame.regress, pushFrame] at hst
      injection hst with hst
      subst hst
      have hparent : folds.contains (t, (rest.map CursorFrame.index).reverse)
          = false := by
        have hk := hpre ((rest.map CursorFrame.index).reverse).length
          (by simp)
        simpa only [List.map_cons, CursorFrame.index, List.reverse_cons,
          List.take_left] using hk
      unfold regress_force
      rw [if_neg (by rw [strip_to_path_mk, hparent]; simp)]
      simp only [Cursor.advance, strip_to_path_mk]
      rw [if_pos ⟨trivial, by simpa using hparent⟩]
      match arr, hget with
      | a :: arr', hget =>
        simp only [List.getElem?_cons_zero] at hget
        injection hget with hget
        subst hget
        simp [open_container, pushFrame, hstart]
    | i' + 1, hget, hst =>
      have hsib : arr[i']? = some (arr.getD i' JV.null) :=
        getD_getElem? arr i' JV.null
          (by have := getElem?_some_lt arr (i' + 1) focus hget; omega)
      simp only [CursorFrame.regress, hsib, pushFrame] at hst
      injection hst with hst
      subst hst
      rw [advance_force_eq_end folds _ (ending_ne_start _)]
      simp only [Cursor.advance]
      rw [if_neg (by simp)]
      simp [CursorFrame.advance, hget, pushFrame, hstart]
  | CursorFrame.Object i k kvs it :: rest, hchain, hst =>
    obtain ⟨hget, hit, hrest⟩ := hchain
    match i, hget, hit, hst with
    | 0, hget, hit, hst =>
      simp only [CursorFrame.regress, pushFrame] at hst
      injection hst with hst
      subst hst
      have hparent : folds.contains (t, (rest.map CursorFrame.index).reverse)
          = false := by
        have hk := hpre ((rest.map CursorFrame.index).reverse).length
          (by simp)
        simpa only [List.map_cons, CursorFrame.index, List.reverse_cons,
          List.take_left] using hk
      unfold regress_force
      rw [if_neg (by rw [strip_to_path_mk, hparent]; simp)]
      simp only [Cursor.advance, strip_to_path_mk]
      rw [if_pos ⟨trivial, by simpa using hparent⟩]
      match kvs, hget, hit with
      | (k0, x) :: kvs', hget, hit =>
        simp only [List.getElem?_cons_zero] at hget
        injection hget with hget
        rw [Prod.mk.injEq] at hget
        obtain ⟨rfl, rfl⟩ := hget
        simp [open_container, pushFrame, hstart, hit]
    | i' + 1, hget, hit, hst =>
      have hlt : i' < kvs.length := by
        have := getElem?_some_lt kvs (i' + 1) _ hget
        omega
      obtain ⟨⟨k2, sib⟩, hsib⟩ : ∃ e, kvs[i']? = some e :=
        ⟨_, getD_getElem? kvs i' ("", JV.null) hlt⟩
      simp only [CursorFrame.regress, hsib, pushFrame] at hst
      injection hst with hst
      subst hst
      rw [advance_force_eq_end folds _ (ending_ne_start _)]
      simp only [Cursor.advance]
      rw [if_neg (by simp)]
      have hdrop := drop_of_getElem? kvs (i' + 1) _ hget
      simp [CursorFrame.advance, hdrop, pushFrame, hstart, hit]

/-- Regress followed by advance returns to the start, provided the starting
position is visible under the fold set. -/
theorem regress_then_advance (c d : Cursor) (folds : FoldSet)
    (hwf : c.wf) (hvis : c.visible folds)
    (h : c.regress folds = some d) :
    d.advance folds = some c := by
  obtain ⟨d0, hst, hd⟩ := Option.map_eq_some'.mp h
  subst hd
  obtain ⟨jsons, t, frames, focus, fp⟩ := c
  obtain ⟨htop, hchain, hpos⟩ := hwf
  have htop' : t < jsons.length := htop
  obtain ⟨hpre, hnend⟩ := hvis
  cases fp with
  | End =>
    have hnf_end : folds.contains (t, (frames.map CursorFrame.index).reverse)
        = false := by
      cases hx : folds.contains (t, (frames.map CursorFrame.index).reverse)
      · rfl
      · exact absurd ⟨by simpa [strip_to_path_mk] using hx, rfl⟩ hnend
    have hsc : focus.isScalar = false := by
      cases hx : focus.isScalar
      · rfl
      · exact absurd (hpos.mpr hx) (by simp)
    simp only [Cursor.regress_stepped, if_true] at hst
    match focus, hsc, hst with
    | JV.array arr, hsc, hst =>
      cases arr with
      | nil =>
        simp only [open_container_end, List.isEmpty_nil, if_true,
          pushFrame] at hst
        injection hst with hst
        subst hst
        unfold regress_force
        rw [if_neg (by rw [strip_to_path_mk, hnf_end]; simp)]
        simp only [Cursor.advance, strip_to_path_mk]
        rw [if_pos ⟨trivial, by simpa [strip_to_path_mk] using hnf_end⟩]
        simp [open_container, pushFrame]
      | cons x xs =>
        have hlt : (x :: xs).length - 1 < (x :: xs).length := by simp
        have hlast := getD_getElem? (x :: xs) ((x :: xs).length - 1)
          JV.null hlt
        simp only [open_container_end, List.isEmpty_cons, Bool.false_eq_true,
          if_false, hlast, pushFrame] at hst
        injection hst with hst
        subst hst
        rw [advance_force_eq_end folds _ (ending_ne_start _)]
        simp only [Cursor.advance]
        rw [if_neg (by simp)]
        have hnone : (x :: xs)[(x :: xs).length - 1 + 1]? = none := by
          apply List.getElem?_eq_none_iff.mpr
          simp
        simp [CursorFrame.advance, hnone, pushFrame]
    | JV.object entries, hsc, hst =>
      cases hg : entries.getLast? with
      | none =>
        simp only [open_container_end, hg, pushFrame] at hst
        injection hst with hst
        subst hst
        have hemp : entries = [] := by
          cases entries with
          | nil => rfl
          | cons e es => simp [List.getLast?_eq_getElem?] at hg
        subst hemp
        unfold regress_force
        rw [if_neg (by rw [strip_to_path_mk, hnf_end]; simp)]
        simp only [Cursor.advance, strip_to_path_mk]
        rw [if_pos ⟨trivial, by simpa [strip_to_path_mk] using hnf_end⟩]
        simp [open_container, pushFrame]
      | some e =>
        obtain ⟨k, child⟩ := e
        simp only [open_container_end, hg, pushFrame] at hst
        injection hst with hst
        subst hst
        rw [advance_force_eq_end folds _ (ending_ne_start _)]
        simp only [Cursor.advance]
        rw [if_neg (by simp)]
        simp [CursorFrame.advance, pushFrame]
  | Start =>
    have hsc : focus.isScalar = false := by
      cases hx : focus.isScalar
      · rfl
      · exact absurd (hpos.mpr hx) (by simp)
    exact regress_pop_advance jsons t frames focus FocusPosition.Start folds
      d0 (by simp) (starting_of_container focus hsc) htop' hchain hpre hst
  | Value =>
    have hsc : focus.isScalar = true := hpos.mp rfl
    exact regress_pop_advance jsons t frames focus FocusPosition.Value folds
      d0 (by simp) (starting_of_scalar focus hsc) htop' hchain hpre hst

/-! ### Preservation of the structural invariant -/

theorem starting_eq_value_iff (v : JV) :
    (FocusPosition.starting v = FocusPosition.Value) ↔ v.isScalar = true := by
  cases v <;> simp [FocusPosition.starting, JV.isScalar]

theorem ending_eq_value_iff (v : JV) :
    (FocusPosition.ending v = FocusPosition.Value) ↔ v.isScalar = true := by
  cases v <;> simp [FocusPosition.ending, JV.isScalar]

theorem getD_of_getElem? {α : Type} (l : List α) (i : Nat) (d v : α)
    (h : l[i]? = some v) : l.getD i d = v := by
  have h2 := getD_getElem? l i d (getElem?_some_lt l i v h)
  rw [h] at h2
  injection h2 with h2
  exact h2.symm

theorem wf_new (jsons : List JV) (c : Cursor)
    (h : Cursor.new jsons = some c) : c.wf := by
  simp only [Cursor.new] at h
  cases hj : jsons[0]? with
  | none => simp [hj] at h
  | some focus =>
    simp only [hj] at h
    injection h with h
    subst h
    refine ⟨getElem?_some_lt jsons 0 focus hj, ?_, ?_⟩
    · exact getD_of_getElem? jsons 0 JV.null focus hj
    · exact starting_eq_value_iff focus

theorem wf_advance (c c' : Cursor) (folds : FoldSet) (hwf : c.wf)
    (h : c.advance folds = some c') : c'.wf := by
  obtain ⟨jsons, t, frames, focus, fp⟩ := c
  obtain ⟨htop, hchain, hpos⟩ := hwf
  have htop' : t < jsons.length := htop
  by_cases hcond : fp = FocusPosition.Start ∧
      folds.contains (Cursor.to_path ⟨jsons, t, frames, focus, fp⟩).strip_position
        = false
  · obtain ⟨hfp, hfold⟩ := hcond
    subst hfp
    have hsc : focus.isScalar = false := by
      cases hx : focus.isScalar
      · rfl
      · exact absurd (hpos.mpr hx) (by simp)
    simp only [Cursor.advance, to_path_mk] at h
    rw [if_pos ⟨trivial, hfold⟩] at h
    match focus, hsc, h with
    | JV.array arr, hsc, h =>
      cases arr with
      | nil =>
        simp only [open_container, pushFrame] at h
        injection h with h
        subst h
        exact ⟨htop', hchain, by simp [JV.isScalar]⟩
      | cons x xs =>
        simp only [open_container, pushFrame] at h
        injection h with h
        subst h
        exact ⟨htop', ⟨by simp, hchain⟩, starting_eq_value_iff x⟩
    | JV.object entries, hsc, h =>
      cases entries with
      | nil =>
        simp only [open_container, pushFrame] at h
        injection h with h
        subst h
        exact ⟨htop', hchain, by simp [JV.isScalar]⟩
      | cons e entries' =>
        obtain ⟨k, x⟩ := e
        simp only [open_container, pushFrame] at h
        injection h with h
        subst h
        exact ⟨htop', ⟨by simp, by simp, hchain⟩, starting_eq_value_iff x⟩
  · simp only [Cursor.advance, to_path_mk] at h
    rw [if_neg (by simpa [strip_to_path_mk] using hcond)] at h
    match frames, hchain, h with
    | [], hchain, h =>
      cases hj : jsons[t + 1]? with
      | none => simp [hj] at h
      | some fo =>
        simp only [hj] at h
        injection h with h
        subst h
        refine ⟨getElem?_some_lt jsons (t + 1) fo hj, ?_, ?_⟩
        · exact getD_of_getElem? jsons (t + 1) JV.null fo hj
        · exact starting_eq_value_iff fo
    | CursorFrame.Array i arr :: rest, hchain, h =>
      obtain ⟨hget, hrest⟩ := hchain
      cases hj : arr[i + 1]? with
      | none =>
        simp only [CursorFrame.advance, hj, pushFrame] at h
        injection h with h
        subst h
        exact ⟨htop', hrest, by simp [JV.isScalar]⟩
      | some child =>
        simp only [CursorFrame.advance, hj, pushFrame] at h
        injection h with h
        subst h
        exact ⟨htop', ⟨hj, hrest⟩, starting_eq_value_iff child⟩
    | CursorFrame.Object i k kvs it :: rest, hchain, h =>
      obtain ⟨hget, hit, hrest⟩ := hchain
      cases hcase : it with
      | nil =>
        subst hcase
        simp only [CursorFrame.advance, pushFrame] at h
        injection h with h
        subst h
        exact ⟨htop', hrest, by simp [JV.isScalar]⟩
      | cons e it' =>
        obtain ⟨k2, child⟩ := e
        subst hcase
        obtain ⟨hget2, hdrop2⟩ := drop_cons_facts kvs i (k2, child) it' hit.symm
        simp only [CursorFrame.advance, pushFrame] at h
        injection h with h
        subst h
        exact ⟨htop', ⟨hget2, hdrop2, hrest⟩, starting_eq_value_iff child⟩

theorem regress_stepped_jsons (c d0 : Cursor)
    (h : c.regress_stepped = some d0) : d0.jsons = c.jsons := by
  obtain ⟨jsons, t, frames, focus, fp⟩ := c
  simp only [Cursor.regress_stepped] at h
  by_cases hfp : fp = FocusPosition.End
  · rw [if_pos hfp] at h
    injection h with h
    subst h
    rfl
  · rw [if_neg hfp] at h
    match frames, h with
    | [], h =>
      match t, h with
      | 0, h => simp at h
      | t' + 1, h =>
        cases hj : jsons[t']? with
        | none => simp [hj] at h
        | some fo =>
          simp only [hj] at h
          injection h with h
          subst h
          rfl
    | frame :: rest, h =>
      injection h with h
      subst h
      rfl

theorem wf_regress_stepped (c d0 : Cursor) (hwf : c.wf)
    (h : c.regress_stepped = some d0) : d0.wf := by
  obtain ⟨jsons, t, frames, focus, fp⟩ := c
  obtain ⟨htop, hchain, hpos⟩ := hwf
  have htop' : t < jsons.length := htop
  simp only [Cursor.regress_stepped] at h
  by_cases hfp : fp = FocusPosition.End
  · subst hfp
    rw [if_pos rfl] at h
    have hsc : focus.isScalar = false := by
      cases hx : focus.isScalar
      · rfl
      · exact absurd (hpos.mpr hx) (by simp)
    match focus, hsc, h with
    | JV.array arr, hsc, h =>
      cases arr with
      | nil =>
        simp only [open_container_end, List.isEmpty_nil, if_true,
          pushFrame] at h
        injection h with h
        subst h
        exact ⟨htop', hchain, by simp [JV.isScalar]⟩
      | cons x xs =>
        have hlt : (x :: xs).length - 1 < (x :: xs).length := by simp
        have hlast := getD_getElem? (x :: xs) ((x :: xs).length - 1)
          JV.null hlt
        simp only [open_container_end, List.isEmpty_cons, Bool.false_eq_true,
          if_false, hlast, pushFrame] at h
        injection h with h
        subst h
        exact ⟨htop', ⟨hlast, hchain⟩, ending_eq_value_iff _⟩
    | JV.object entries, hsc, h =>
      cases hg : entries.getLast? with
      | none =>
        simp only [open_container_end, hg, pushFrame] at h
        injection h with h
        subst h
        exact ⟨htop', hchain, by simp [JV.isScalar]⟩
      | some e =>
        obtain ⟨k, child⟩ := e
        have hne : entries ≠ [] := by
          intro hh
          subst hh
          simp [List.getLast?_eq_getElem?] at hg
        have hget : entries[entries.length - 1]? = some (k, child) := by
          rw [List.getLast?_eq_getElem?] at hg
          exact hg
        have hdrop : [] = entries.drop (entries.length - 1 + 1) := by
          have hlen : 0 < entries.length := List.length_pos.mpr hne
          rw [List.drop_eq_nil_iff.mpr (by omega)]
        simp only [open_container_end, hg, pushFrame] at h
        injection h with h
        subst h
        exact ⟨htop', ⟨hget, hdrop, hchain⟩, ending_eq_value_iff _⟩
  · rw [if_neg hfp] at h
    match frames, hchain, h with
    | [], hchain, h =>
      match t, htop', h with
      | 0, htop', h => simp at h
      | t' + 1, htop', h =>
        have hroot' : jsons[t']? = some (jsons.getD t' JV.null) :=
          getD_getElem? jsons t' JV.null (by omega)
        simp only [hroot'] at h
        injection h with h
        subst h
        exact ⟨show t' < jsons.length by omega, rfl, ending_eq_value_iff _⟩
    | CursorFrame.Array i arr :: rest, hchain, h =>
      obtain ⟨hget, hrest⟩ := hchain
      match i, hget, h with
      | 0, hget, h =>
        simp only [CursorFrame.regress, pushFrame] at h
        injection h with h
        subst h
        exact ⟨htop', hrest, by simp [JV.isScalar]⟩
      | i' + 1, hget, h =>
        have hsib : arr[i']? = some (arr.getD i' JV.null) :=
          getD_getElem? arr i' JV.null
            (by have := getElem?_some_lt arr (i' + 1) focus hget; omega)
        simp only [CursorFrame.regress, hsib, pushFrame] at h
        injection h with h
        subst h
        exact ⟨htop', ⟨hsib, hrest⟩, ending_eq_value_iff _⟩
    | CursorFrame.Object i k kvs it :: rest, hchain, h =>
      obtain ⟨hget, hit, hrest⟩ := hchain
      match i, hget, hit, h with
      | 0, hget, hit, h =>
        simp only [CursorFrame.regress, pushFrame] at h
        injection h with h
        subst h
        exact ⟨htop', hrest, by simp [JV.isScalar]⟩
      | i' + 1, hget, hit, h =>
        have hlt : i' < kvs.length := by
          have := getElem?_some_lt kvs (i' + 1) _ hget
          omega
        obtain ⟨⟨k2, sib⟩, hsib⟩ : ∃ e, kvs[i']? = some e :=
          ⟨_, getD_getElem? kvs i' ("", JV.null) hlt⟩
        simp only [CursorFrame.regress, hsib, pushFrame] at h
        injection h with h
        subst h
        exact ⟨htop', ⟨hsib, rfl, hrest⟩, ending_eq_value_iff _⟩

theorem wf_regress (c d : Cursor) (folds : FoldSet) (hwf : c.wf)
    (hfolds : foldsOk c.jsons folds) (h : c.regress folds = some d) :
    d.wf := by
  obtain ⟨d0, hst, hd⟩ := Option.map_eq_some'.mp h
  subst hd
  have hwf0 := wf_regress_stepped c d0 hwf hst
  have hj := regress_stepped_jsons c d0 hst
  unfold regress_force
  by_cases hcf : folds.contains d0.to_path.strip_position = true
  · rw [if_pos hcf]
    have hsc : d0.focus.isScalar = false := by
      cases hx : d0.focus.isScalar
      · rfl
      · have := not_folded_of_scalar d0 folds hwf0 (hj ▸ hfolds) hx
        rw [hcf] at this
        cases this
    obtain ⟨j0, t0, fs0, fo0, fp0⟩ := d0
    obtain ⟨htop0, hchain0, -⟩ := hwf0
    exact ⟨htop0, hchain0, by simp [hsc]⟩
  · rw [if_neg hcf]
    exact hwf0

/-! ### Path round trip -/

theorem from_path_go_append (xs ys : List Nat) (focus : JV)
    (acc : List CursorFrame) :
    from_path_go focus (xs ++ ys) acc =
      match from_path_go focus xs acc with
      | none => none
      | some (acc', mid) => from_path_go mid ys acc' := by
  induction xs generalizing focus acc with
  | nil => simp [from_path_go]
  | cons i is ih =>
    cases focus with
    | array arr =>
      simp only [List.cons_append, from_path_go]
      cases arr[i]? with
      | none => rfl
      | some child => exact ih child _
    | object entries =>
      simp only [List.cons_append, from_path_go]
      cases hj : entries[i]? with
      | none => rfl
      | some e =>
        obtain ⟨k, child⟩ := e
        exact ih child _
    | null => rfl
    | bool b => rfl
    | number x => rfl
    | string s => rfl

theorem chain_from_path_go (root focus : JV) (frames : List CursorFrame)
    (acc : List CursorFrame) (hchain : chainOk root frames focus) :
    from_path_go root ((frames.map CursorFrame.index).reverse) acc =
      some (frames ++ acc, focus) := by
  induction frames generalizing focus acc with
  | nil =>
    rw [chainOk_nil] at hchain
    subst hchain
    simp [from_path_go]
  | cons f rest ih =>
    cases f with
    | Array i arr =>
      obtain ⟨hget, hrest⟩ := hchain
      simp only [List.map_cons, List.reverse_cons, CursorFrame.index]
      rw [from_path_go_append, ih (JV.array arr) acc hrest]
      simp [from_path_go, hget]
    | Object i k kvs it =>
      obtain ⟨hget, hit, hrest⟩ := hchain
      simp only [List.map_cons, List.reverse_cons, CursorFrame.index]
      rw [from_path_go_append, ih (JV.object kvs) acc hrest]
      simp [from_path_go, hget, hit]

/-- For a well-formed cursor, `from_path` inverts `to_path` exactly. -/
theorem from_path_to_path (c : Cursor) (hwf : c.wf) :
    Cursor.from_path c.jsons c.to_path = some c := by
  obtain ⟨jsons, t, frames, focus, fp⟩ := c
  obtain ⟨htop, hchain, -⟩ := hwf
  have htop' : t < jsons.length := htop
  have hroot : jsons[t]? = some (jsons.getD t JV.null) :=
    getD_getElem? jsons t JV.null htop'
  simp only [Cursor.from_path, to_path_mk, hroot]
  rw [chain_from_path_go _ _ _ [] hchain]
  simp

/-! ### Reachability gives well-formedness -/

theorem reaches_wf (c : Cursor) (h : Reaches c) : c.wf := by
  induction h with
  | base jsons c hnew => exact wf_new jsons c hnew
  | adv c c' folds _ hfolds hstep ih => exact wf_advance c c' folds ih hstep
  | reg c c' folds _ hfolds hstep ih =>
    exact wf_regress c c' folds ih hfolds hstep
  | path c c' _ hfp ih =>
    rw [from_path_to_path c ih] at hfp
    injection hfp with hfp
    subst hfp
    exact ih

theorem reachesAdv_wf (jsons : List JV) (c : Cursor)
    (h : ReachesAdv jsons c) : c.wf := by
  induction h with
  | base c hnew => exact wf_new jsons c hnew
  | step c c' _ hstep ih => exact wf_advance c c' [] ih hstep

/-! ### Claim theorems -/

/-- C1 (amended): inserting P's fold key makes a single `advance` from P's
Start line behave exactly as an `advance` from P's End line would: the
container's children are skipped, and the traversal moves past the whole
container (next sibling, enclosing close line, next root, or exhaustion).
The folded container's own End line is not visited; a folded container
occupies a single rendered line. -/
theorem claim_C1 (c : Cursor) (folds : FoldSet)
    (hfp : c.focus_position = FocusPosition.Start)
    (hfold : folds.contains c.to_path.strip_position = true) :
    c.advance folds =
      Cursor.advance ⟨c.jsons, c.top_index, c.frames, c.focus,
        FocusPosition.End⟩ folds := by
  obtain ⟨jsons, t, frames, focus, fp⟩ := c
  subst hfp
  refine advance_not_open_eq jsons t frames focus FocusPosition.Start folds ?_
  intro hc
  rw [hc.2] at hfold
  cases hfold

/-- C1 counterexample: the single root `[null]` (an array with one child)
with its own fold key inserted.  `advance` from its Start position does not
land on its End position; it reports exhaustion instead. -/
theorem claim_C1_counterexample :
    [((0 : Nat), ([] : List Nat))].contains
      ((Cursor.to_path ⟨[JV.array [JV.null]], 0, [], JV.array [JV.null],
        FocusPosition.Start⟩).strip_position) = true
    ∧ Cursor.advance ⟨[JV.array [JV.null]], 0, [], JV.array [JV.null],
        FocusPosition.Start⟩ [(0, [])] = none := by decide

theorem claim_C1_witness :
    Cursor.advance ⟨[JV.array [JV.null, JV.bool true]], 0, [],
        JV.array [JV.null, JV.bool true], FocusPosition.Start⟩ [(0, [])]
      = Cursor.advance ⟨[JV.array [JV.null, JV.bool true]], 0, [],
        JV.array [JV.null, JV.bool true], FocusPosition.End⟩ [(0, [])] :=
  claim_C1 ⟨[JV.array [JV.null, JV.bool true]], 0, [],
    JV.array [JV.null, JV.bool true], FocusPosition.Start⟩ [(0, [])]
    rfl (by decide)

/-- C2 (amended): for a well-formed cursor whose position is visible under a
container-keyed fold set (no strict ancestor folded, and not sitting on the
End line of a folded container — exactly the positions the traversal can
occupy while the folds are active), a successful `advance` is undone exactly
by `regress`, and a successful `regress` is undone exactly by `advance`,
reproducing the cursor including its frame stack. -/
theorem claim_C2 (c : Cursor) (folds : FoldSet) (hwf : c.wf)
    (hfolds : foldsOk c.jsons folds) (hvis : c.visible folds) :
    (∀ c', c.advance folds = some c' → c'.regress folds = some c) ∧
    (∀ d, c.regress folds = some d → d.advance folds = some c) :=
  ⟨fun c' h => advance_then_regress c c' folds hwf hfolds hvis.2 h,
   fun d h => regress_then_advance c d folds hwf hvis h⟩

/-- C2 counterexample: roots `[[null], null]` with the first root's fold key
inserted, cursor on the folded array's End line (a well-formed cursor, and
the fold key names a container).  `advance` succeeds, but `regress` of the
result lands on the folded array's Start line, not back on its End line. -/
theorem claim_C2_counterexample :
    (Cursor.wf ⟨[JV.array [JV.null], JV.null], 0, [], JV.array [JV.null],
        FocusPosition.End⟩)
    ∧ foldsOk [JV.array [JV.null], JV.null] [(0, [])]
    ∧ (Cursor.advance ⟨[JV.array [JV.null], JV.null], 0, [],
        JV.array [JV.null], FocusPosition.End⟩ [(0, [])]).isSome = true
    ∧ ((Cursor.advance ⟨[JV.array [JV.null], JV.null], 0, [],
          JV.array [JV.null], FocusPosition.End⟩ [(0, [])]).bind
        (fun d => d.regress [(0, [])]))
      = some ⟨[JV.array [JV.null], JV.null], 0, [], JV.array [JV.null],
          FocusPosition.Start⟩
    ∧ (⟨[JV.array [JV.null], JV.null], 0, [], JV.array [JV.null],
          FocusPosition.Start⟩ : Cursor)
      ≠ ⟨[JV.array [JV.null], JV.null], 0, [], JV.array [JV.null],
          FocusPosition.End⟩ := by decide

theorem claim_C2_witness :
    Cursor.regress ⟨[JV.null, JV.bool true], 1, [], JV.bool true,
        FocusPosition.Value⟩ []
      = some ⟨[JV.null, JV.bool true], 0, [], JV.null,
          FocusPosition.Value⟩ :=
  (claim_C2 ⟨[JV.null, JV.bool true], 0, [], JV.null,
      FocusPosition.Value⟩ [] (by decide) (by decide) (by decide)).1
    ⟨[JV.null, JV.bool true], 1, [], JV.bool true, FocusPosition.Value⟩
    (by decide)

/-- C3: for every cursor reachable from `Cursor::new` by `advance` steps
with the empty fold set, `from_path` of `to_path` rebuilds the cursor
exactly, and `clone` (defined as this dehydrate-rehydrate round trip)
returns the cursor itself. -/
theorem claim_C3 (jsons : List JV) (c : Cursor) (h : ReachesAdv jsons c) :
    Cursor.from_path c.jsons c.to_path = some c ∧ c.clone = some c := by
  have hwf := reachesAdv_wf jsons c h
  exact ⟨from_path_to_path c hwf, from_path_to_path c hwf⟩

theorem claim_C3_witness :
    Cursor.from_path [JV.array [JV.null]]
        (Cursor.to_path ⟨[JV.array [JV.null]], 0,
          [CursorFrame.Array 0 [JV.null]], JV.null, FocusPosition.Value⟩)
      = some ⟨[JV.array [JV.null]], 0, [CursorFrame.Array 0 [JV.null]],
          JV.null, FocusPosition.Value⟩
    ∧ Cursor.clone ⟨[JV.array [JV.null]], 0, [CursorFrame.Array 0 [JV.null]],
          JV.null, FocusPosition.Value⟩
      = some ⟨[JV.array [JV.null]], 0, [CursorFrame.Array 0 [JV.null]],
          JV.null, FocusPosition.Value⟩ :=
  claim_C3 [JV.array [JV.null]]
    ⟨[JV.array [JV.null]], 0, [CursorFrame.Array 0 [JV.null]], JV.null,
      FocusPosition.Value⟩
    (ReachesAdv.step
      ⟨[JV.array [JV.null]], 0, [], JV.array [JV.null], FocusPosition.Start⟩
      _
      (ReachesAdv.base
        ⟨[JV.array [JV.null]], 0, [], JV.array [JV.null],
          FocusPosition.Start⟩ (by decide))
      (by decide))

/-- C4: for every cursor and every fold set, a successful `advance` yields a
strictly greater `Path` under the `Ord` implementation, and a successful
`regress` a strictly smaller one.  (No well-formedness hypothesis is needed:
even the branches that model source panics move the path strictly.) -/
theorem claim_C4 (c : Cursor) (folds : FoldSet) :
    (∀ c', c.advance folds = some c' →
      Path.cmp c'.to_path c.to_path = Ordering.gt) ∧
    (∀ d, c.regress folds = some d →
      Path.cmp d.to_path c.to_path = Ordering.lt) :=
  ⟨fun c' h => advance_path_gt c c' folds h,
   fun d h => regress_path_lt c d folds h⟩

theorem claim_C4_witness :
    Path.cmp
        (Cursor.to_path ⟨[JV.array [JV.null]], 0,
          [CursorFrame.Array 0 [JV.null]], JV.null, FocusPosition.Value⟩)
        (Cursor.to_path ⟨[JV.array [JV.null]], 0, [], JV.array [JV.null],
          FocusPosition.Start⟩)
      = Ordering.gt :=
  (claim_C4 ⟨[JV.array [JV.null]], 0, [], JV.array [JV.null],
      FocusPosition.Start⟩ []).1
    ⟨[JV.array [JV.null]], 0, [CursorFrame.Array 0 [JV.null]], JV.null,
      FocusPosition.Value⟩
    (by decide)

/-- C9: every cursor reachable from `Cursor::new` — or from `from_path` of a
path derived from such a cursor — by any sequence of `advance` and `regress`
calls with container-keyed fold sets satisfies the structural invariant: the
top index is in range, the frame stack read bottom-to-top with each frame's
stored index exactly reconstructs the path from the matching root to the
focus (including the resumable iterator suffix), and the focus position is
`Value` exactly when the focus is a scalar (`Start`/`End`, never `Value`,
for containers). -/
theorem claim_C9 (c : Cursor) (h : Reaches c) :
    c.top_index < c.jsons.length
    ∧ chainOk (c.jsons.getD c.top_index JV.null) c.frames c.focus
    ∧ (c.focus_position = FocusPosition.Value ↔ c.focus.isScalar = true) :=
  reaches_wf c h

theorem claim_C9_witness :
    (0 : Nat) < ([JV.array [JV.null]] : List JV).length
    ∧ chainOk (([JV.array [JV.null]] : List JV).getD 0 JV.null)
        [CursorFrame.Array 0 [JV.null]] JV.null
    ∧ (FocusPosition.Value = FocusPosition.Value ↔
        JV.null.isScalar = true) :=
  claim_C9
    ⟨[JV.array [JV.null]], 0, [CursorFrame.Array 0 [JV.null]], JV.null,
      FocusPosition.Value⟩
    (Reaches.adv
      ⟨[JV.array [JV.null]], 0, [], JV.array [JV.null], FocusPosition.Start⟩
      _ []
      (Reaches.base [JV.array [JV.null]]
        ⟨[JV.array [JV.null]], 0, [], JV.array [JV.null],
          FocusPosition.Start⟩ (by decide))
      (by decide) (by decide))

/-- C6: for a well-formed cursor, `advance` fails exactly at the last
visible position of the root sequence — frame stack empty, top index on the
last root, and not an unfolded `Start` (which would still descend) — and
`regress` fails exactly at the absolute first position — frame stack empty,
top index 0, and not an `End` (which would still descend backwards).  In
the functional reading a failing call returns `none` and the cursor is the
unchanged original, which is also how the source behaves: both failure
paths return before any field is mutated. -/
theorem claim_C6 (c : Cursor) (folds : FoldSet) (hwf : c.wf) :
    (c.advance folds = none ↔
      (c.frames = [] ∧ c.top_index + 1 = c.jsons.length
        ∧ ¬(c.focus_position = FocusPosition.Start
              ∧ folds.contains c.to_path.strip_position = false))) ∧
    (c.regress folds = none ↔
      (c.frames = [] ∧ c.top_index = 0
        ∧ c.focus_position ≠ FocusPosition.End)) := by
  obtain ⟨jsons, t, frames, focus, fp⟩ := c
  obtain ⟨htop, hchain, hpos⟩ := hwf
  have htop' : t < jsons.length := htop
  constructor
  · by_cases hcond : fp = FocusPosition.Start ∧
        folds.contains
          (Cursor.to_path ⟨jsons, t, frames, focus, fp⟩).strip_position = false
    · simp only [Cursor.advance]
      rw [if_pos hcond]
      constructor
      · intro h
        exact absurd h (by simp)
      · intro h
        exact absurd hcond h.2.2
    · simp only [Cursor.advance]
      rw [if_neg hcond]
      match frames with
      | [] =>
        cases hj : jsons[t + 1]? with
        | none =>
          have hlen := List.getElem?_eq_none_iff.mp hj
          exact ⟨fun _ => ⟨rfl, by omega, fun hc => hcond hc⟩, fun _ => rfl⟩
        | some fo =>
          have hlt := getElem?_some_lt jsons (t + 1) fo hj
          exact ⟨fun h => absurd h (by simp),
            fun h => absurd h.2.1 (by omega)⟩
      | frame :: rest =>
        exact ⟨fun h => absurd h (by simp),
          fun h => absurd h.1 (List.cons_ne_nil _ _)⟩
  · simp only [Cursor.regress, Option.map_eq_none']
    cases fp with
    | End =>
      simp only [Cursor.regress_stepped, if_true]
      constructor
      · intro h
        exact absurd h (by simp)
      · intro h
        exact absurd rfl h.2.2
    | Start =>
      simp only [Cursor.regress_stepped]
      rw [if_neg (by simp)]
      match frames with
      | [] =>
        match t, htop' with
        | 0, htop' => simp
        | t' + 1, htop' =>
          cases hj : jsons[t']? with
          | none =>
            exact absurd (List.getElem?_eq_none_iff.mp hj) (by omega)
          | some fo =>
            exact ⟨fun h => absurd h (by simp [hj]),
              fun h => absurd h.2.1 (Nat.succ_ne_zero t')⟩
      | frame :: rest => simp
    | Value =>
      simp only [Cursor.regress_stepped]
      rw [if_neg (by simp)]
      match frames with
      | [] =>
        match t, htop' with
        | 0, htop' => simp
        | t' + 1, htop' =>
          cases hj : jsons[t']? with
          | none =>
            exact absurd (List.getElem?_eq_none_iff.mp hj) (by omega)
          | some fo =>
            exact ⟨fun h => absurd h (by simp [hj]),
              fun h => absurd h.2.1 (Nat.succ_ne_zero t')⟩
      | frame :: rest => simp

theorem claim_C6_witness :
    Cursor.advance ⟨[JV.null], 0, [], JV.null, FocusPosition.Value⟩ [] = none
    ∧ Cursor.regress ⟨[JV.null], 0, [], JV.null, FocusPosition.Value⟩ []
        = none :=
  ⟨(claim_C6 ⟨[JV.null], 0, [], JV.null, FocusPosition.Value⟩ []
      (by decide)).1.mpr (by decide),
   (claim_C6 ⟨[JV.null], 0, [], JV.null, FocusPosition.Value⟩ []
      (by decide)).2.mpr (by decide)⟩

theorem render_lines_go_spec (cursor : Option Cursor) (folds : FoldSet)
    (fuel : Nat) (c : Cursor) :
    (render_lines_go c cursor folds fuel).length ≤ fuel
    ∧ ((render_lines_go c cursor folds fuel).length < fuel →
        ∃ c', advanceIter c folds
            (render_lines_go c cursor folds fuel).length = some c'
          ∧ c'.advance folds = none) := by
  induction fuel generalizing c with
  | zero => exact ⟨Nat.le_refl 0, fun h => absurd h (by omega)⟩
  | succ n ih =>
    cases hadv : c.advance folds with
    | none =>
      refine ⟨by simp [render_lines_go, hadv], fun h => ⟨c, ?_, hadv⟩⟩
      simp [render_lines_go, hadv, advanceIter]
    | some c' =>
      have ihc := ih c'
      constructor
      · simp only [render_lines_go, hadv, List.length_cons]
        omega
      · intro h
        simp only [render_lines_go, hadv, List.length_cons] at h ⊢
        obtain ⟨c'', h1, h2⟩ := ihc.2 (by omega)
        refine ⟨c'', ?_, h2⟩
        simpa [advanceIter, hadv] using h1

/-- C10: `render_lines` always returns a non-empty vector of at most
`line_limit + 1` rendered lines: the line at the starting position followed
by at most `line_limit` further lines, stopping earlier only when `advance`
reports traversal exhaustion. -/
theorem claim_C10 (c : Cursor) (cursor : Option Cursor) (folds : FoldSet)
    (line_limit : Nat) :
    c.render_lines cursor folds line_limit ≠ []
    ∧ (c.render_lines cursor folds line_limit).length ≤ line_limit + 1
    ∧ ((c.render_lines cursor folds line_limit).length < line_limit + 1 →
        ∃ c', advanceIter c folds
            ((c.render_lines cursor folds line_limit).length - 1) = some c'
          ∧ c'.advance folds = none) := by
  have hgo := render_lines_go_spec cursor folds line_limit c
  refine ⟨by simp [Cursor.render_lines], ?_, ?_⟩
  · simp only [Cursor.render_lines, List.length_cons]
    omega
  · intro h
    simp only [Cursor.render_lines, List.length_cons] at h ⊢
    simpa using hgo.2 (by omega)

theorem claim_C10_witness :
    (Cursor.render_lines ⟨[JV.null], 0, [], JV.null, FocusPosition.Value⟩
      none [] 5).length ≤ 5 + 1 :=
  (claim_C10 ⟨[JV.null], 0, [], JV.null, FocusPosition.Value⟩ none [] 5).2.1

/-- Elementwise first-difference comparison of index sequences, used by the
spec-side description of the Path order when neither sequence is a prefix
of the other. -/
def lexNat : List Nat → List Nat → Ordering
  | x :: xs, y :: ys => if x = y then lexNat xs ys else compare x y
  | _, _ => Ordering.eq

/-- The Path comparison as the spec describes it: root index first; then,
if the frame-index sequences are equal, the focus positions compared with
Start < Value < End; if one sequence is a strict prefix of the other, the
shorter path's focus position decides (Start sorts it before the longer
path, End after; Value is the contract-violation panic, modelled by the
same junk value `Ordering.eq` the source comparison's panic is modelled
by); otherwise the first differing index decides. -/
def specPathCmp (p q : Path) : Ordering :=
  if p.top_index ≠ q.top_index then compare p.top_index q.top_index
  else if p.frames = q.frames then
    FocusPosition.cmp p.focus_position q.focus_position
  else if p.frames.isPrefixOf q.frames then
    match p.focus_position with
    | FocusPosition.Start => Ordering.lt
    | FocusPosition.Value => Ordering.eq
    | FocusPosition.End => Ordering.gt
  else if q.frames.isPrefixOf p.frames then
    match q.focus_position with
    | FocusPosition.Start => Ordering.gt
    | FocusPosition.Value => Ordering.eq
    | FocusPosition.End => Ordering.lt
  else lexNat p.frames q.frames

/-- Paths derived against the same root shapes: whenever one frame sequence
is a strict prefix of the other, the shorter path's focus position is not
`Value` (a scalar has no children for the longer path to descend into). -/
def comparablePaths (p q : Path) : Prop :=
  (p.frames.isPrefixOf q.frames = true ∧ p.frames ≠ q.frames →
      p.focus_position ≠ FocusPosition.Value)
  ∧ (q.frames.isPrefixOf p.frames = true ∧ q.frames ≠ p.frames →
      q.focus_position ≠ FocusPosition.Value)

instance (p q : Path) : Decidable (comparablePaths p q) :=
  inferInstanceAs (Decidable (_ ∧ _))

theorem cmpIndices_eq_spec (pfp qfp : FocusPosition) (xs ys : List Nat) :
    cmpIndices pfp qfp xs ys =
      (if xs = ys then FocusPosition.cmp pfp qfp
      else if xs.isPrefixOf ys then
        match pfp with
        | FocusPosition.Start => Ordering.lt
        | FocusPosition.Value => Ordering.eq
        | FocusPosition.End => Ordering.gt
      else if ys.isPrefixOf xs then
        match qfp with
        | FocusPosition.Start => Ordering.gt
        | FocusPosition.Value => Ordering.eq
        | FocusPosition.End => Ordering.lt
      else lexNat xs ys) := by
  induction xs generalizing ys with
  | nil =>
    cases ys with
    | nil => simp [cmpIndices]
    | cons y ys' => simp [cmpIndices, List.isPrefixOf]
  | cons x xs' ih =>
    cases ys with
    | nil => simp [cmpIndices, List.isPrefixOf]
    | cons y ys' =>
      by_cases hxy : x = y
      · subst hxy
        rw [show cmpIndices pfp qfp (x :: xs') (x :: ys')
            = cmpIndices pfp qfp xs' ys' from by
          simp [cmpIndices, compare_self_nat]]
        rw [ih ys']
        simp [List.isPrefixOf, lexNat]
      · have hne : ¬(x :: xs' = y :: ys') := by simp [hxy]
        have hp1 : (x :: xs').isPrefixOf (y :: ys') = false := by
          simp [List.isPrefixOf, hxy]
        have hp2 : (y :: ys').isPrefixOf (x :: xs') = false := by
          simp [List.isPrefixOf]
          intro hyx
          exact absurd hyx.symm hxy
        rw [if_neg hne, if_neg (by rw [hp1]; simp),
          if_neg (by rw [hp2]; simp)]
        cases hc : compare x y with
        | eq => exact absurd (Nat.compare_eq_eq.mp hc) hxy
        | lt => simp [cmpIndices, hc, lexNat, hxy]
        | gt => simp [cmpIndices, hc, lexNat, hxy]

/-- C5: for paths derived against the same root shapes, the source's
`Ord for Path` comparison proceeds exactly as the spec describes: root
index first, then the frame-index sequences lexicographically, a strict
prefix resolved by the shorter path's focus position (Start before, End
after), and simultaneous exhaustion resolved by Start < Value < End. -/
theorem claim_C5 (p q : Path) (hc : comparablePaths p q) :
    Path.cmp p q = specPathCmp p q := by
  obtain ⟨pt, pf, pp⟩ := p
  obtain ⟨qt, qf, qp⟩ := q
  by_cases ht : pt = qt
  · subst ht
    rw [Path.cmp_same_top, cmpIndices_eq_spec]
    simp only [specPathCmp, ne_eq, not_true_eq_false, if_false]
  · simp only [Path.cmp, specPathCmp]
    rw [if_pos (by simpa using ht)]
    cases hcmp : compare pt qt with
    | eq => exact absurd (Nat.compare_eq_eq.mp hcmp) ht
    | lt => rfl
    | gt => rfl

theorem claim_C5_witness :
    comparablePaths ⟨0, [1], FocusPosition.Start⟩ ⟨0, [1, 2], FocusPosition.Value⟩
    ∧ Path.cmp ⟨0, [1], FocusPosition.Start⟩ ⟨0, [1, 2], FocusPosition.Value⟩
      = specPathCmp ⟨0, [1], FocusPosition.Start⟩
          ⟨0, [1, 2], FocusPosition.Value⟩ :=
  ⟨by decide,
   claim_C5 ⟨0, [1], FocusPosition.Start⟩ ⟨0, [1, 2], FocusPosition.Value⟩
     (by decide)⟩

/-- The key of the immediate parent object frame, if the parent is an
object. -/
def parentObjectKey (c : Cursor) : Option String :=
  match c.frames.head? with
  | some (CursorFrame.Object _ k _ _) => some k
  | _ => none

/-- A following sibling exists at the current position: for an array parent
the next index is in range, for an object parent the next entry is. -/
def siblingExists (c : Cursor) : Bool :=
  match c.frames.head? with
  | some (CursorFrame.Array i arr) => decide (i + 1 < arr.length)
  | some (CursorFrame.Object i _ kvs _) => decide (i + 1 < kvs.length)
  | none => false

/-- C7 (amended): for a well-formed cursor, `current_line` returns a line
whose content tag matches the focus kind — but the child-count hint on
container tags is always the placeholder 0, not the container's child count
— whose key is the immediate parent object frame's key exactly when the
focus position is not `End`, whose folded flag is exactly membership of the
current fold key in the fold set, whose trailing-comma flag is false at
`Start` and otherwise true exactly when a following sibling exists, and
whose indent is the frame-stack depth reduced modulo 256 (the `as u8`
truncation in the source). -/
theorem claim_C7 (c : Cursor) (folds : FoldSet) (hwf : c.wf) :
    (c.focus = JV.null →
      (c.current_line folds).content = LineContent.Null)
    ∧ (∀ b, c.focus = JV.bool b →
      (c.current_line folds).content = LineContent.Bool b)
    ∧ (∀ x, c.focus = JV.number x →
      (c.current_line folds).content = LineContent.Number x)
    ∧ (∀ s, c.focus = JV.string s →
      (c.current_line folds).content = LineContent.StringContent s)
    ∧ (∀ xs, c.focus = JV.array xs →
      (c.focus_position = FocusPosition.Start →
        (c.current_line folds).content = LineContent.ArrayStart 0)
      ∧ (c.focus_position = FocusPosition.End →
        (c.current_line folds).content = LineContent.ArrayEnd 0))
    ∧ (∀ es, c.focus = JV.object es →
      (c.focus_position = FocusPosition.Start →
        (c.current_line folds).content = LineContent.ObjectStart 0)
      ∧ (c.focus_position = FocusPosition.End →
        (c.current_line folds).content = LineContent.ObjectEnd 0))
    ∧ ((c.current_line folds).key =
      if c.focus_position = FocusPosition.End then none
      else parentObjectKey c)
    ∧ ((c.current_line folds).folded =
      folds.contains c.to_path.strip_position)
    ∧ ((c.current_line folds).comma =
      (!(c.focus_position == FocusPosition.Start) && siblingExists c))
    ∧ ((c.current_line folds).indent = c.frames.length % 256) := by
  obtain ⟨jsons, t, frames, focus, fp⟩ := c
  obtain ⟨htop, hchain, hpos⟩ := hwf
  refine ⟨?_, ?_, ?_, ?_, ?_, ?_, ?_, ?_, ?_, ?_⟩
  · intro h
    subst h
    have hfp : fp = FocusPosition.Value := hpos.mpr (by simp [JV.isScalar])
    subst hfp
    simp [Cursor.current_line]
  · intro b h
    subst h
    have hfp : fp = FocusPosition.Value := hpos.mpr (by simp [JV.isScalar])
    subst hfp
    simp [Cursor.current_line]
  · intro x h
    subst h
    have hfp : fp = FocusPosition.Value := hpos.mpr (by simp [JV.isScalar])
    subst hfp
    simp [Cursor.current_line]
  · intro s h
    subst h
    have hfp : fp = FocusPosition.Value := hpos.mpr (by simp [JV.isScalar])
    subst hfp
    simp [Cursor.current_line]
  · intro xs h
    subst h
    exact ⟨fun hfp => by subst hfp; simp [Cursor.current_line],
      fun hfp => by subst hfp; simp [Cursor.current_line]⟩
  · intro es h
    subst h
    exact ⟨fun hfp => by subst hfp; simp [Cursor.current_line],
      fun hfp => by subst hfp; simp [Cursor.current_line]⟩
  · cases fp <;>
      rcases frames with _ | ⟨(_ | _), rest⟩ <;>
        simp [Cursor.current_line, parentObjectKey]
  · simp [Cursor.current_line]
  · cases fp with
    | Start => simp [Cursor.current_line]
    | Value =>
      rcases frames with _ | ⟨f, rest⟩
      · simp [Cursor.current_line, siblingExists]
      · cases f with
        | Array i arr =>
          obtain ⟨hget, -⟩ := hchain
          have hlt : i < arr.length := getElem?_some_lt arr i _ hget
          simp only [Cursor.current_line, List.head?_cons, siblingExists]
          rcases Nat.lt_or_ge (i + 1) arr.length with hlt2 | hge
          · have hne : ¬(i = arr.length - 1) := by omega
            simp [hne, hlt2]
          · have he : i = arr.length - 1 := by omega
            have hn2 : ¬(i + 1 < arr.length) := by omega
            simp [he, hn2] <;> omega
        | Object i k kvs it =>
          obtain ⟨hget, hit, -⟩ := hchain
          have hlt : i < kvs.length := getElem?_some_lt kvs i _ hget
          subst hit
          simp only [Cursor.current_line, List.head?_cons, siblingExists,
            List.length_drop]
          rcases Nat.lt_or_ge (i + 1) kvs.length with hlt2 | hge
          · have hne : ¬(kvs.length - (i + 1) = 0) := by omega
            simp [hne, hlt2]
          · have he : kvs.length - (i + 1) = 0 := by omega
            have hn2 : ¬(i + 1 < kvs.length) := by omega
            simp [he, hn2] <;> omega
    | End =>
      rcases frames with _ | ⟨f, rest⟩
      · simp [Cursor.current_line, siblingExists]
      · cases f with
        | Array i arr =>
          obtain ⟨hget, -⟩ := hchain
          have hlt : i < arr.length := getElem?_some_lt arr i _ hget
          simp only [Cursor.current_line, List.head?_cons, siblingExists]
          rcases Nat.lt_or_ge (i + 1) arr.length with hlt2 | hge
          · have hne : ¬(i = arr.length - 1) := by omega
            simp [hne, hlt2]
          · have he : i = arr.length - 1 := by omega
            have hn2 : ¬(i + 1 < arr.length) := by omega
            simp [he, hn2] <;> omega
        | Object i k kvs it =>
          obtain ⟨hget, hit, -⟩ := hchain
          have hlt : i < kvs.length := getElem?_some_lt kvs i _ hget
          subst hit
          simp only [Cursor.current_line, List.head?_cons, siblingExists,
            List.length_drop]
          rcases Nat.lt_or_ge (i + 1) kvs.length with hlt2 | hge
          · have hne : ¬(kvs.length - (i + 1) = 0) := by omega
            simp [hne, hlt2]
          · have he : kvs.length - (i + 1) = 0 := by omega
            have hn2 : ¬(i + 1 < kvs.length) := by omega
            simp [he, hn2] <;> omega
  · simp [Cursor.current_line]

set_option maxRecDepth 4096 in
/-- C7 counterexample: first, on the single-child array root `[null]` at its
Start line, the content tag's child-count hint is 0 although the container
has one child; second, the indent of a 256-frame-deep cursor (with a legal
focus kind / focus position pairing) is 0, not 256, because of the `as u8`
cast. -/
theorem claim_C7_counterexample :
    (Cursor.current_line ⟨[JV.array [JV.null]], 0, [], JV.array [JV.null],
        FocusPosition.Start⟩ []).content = LineContent.ArrayStart 0
    ∧ ([JV.null] : List JV).length = 1
    ∧ LineContent.ArrayStart 0 ≠ LineContent.ArrayStart 1
    ∧ (Cursor.current_line ⟨[JV.null], 0,
        List.replicate 256 (CursorFrame.Array 0 [JV.null]), JV.null,
        FocusPosition.Value⟩ []).indent = 0
    ∧ (List.replicate 256 (CursorFrame.Array 0 [JV.null])).length = 256 := by
  decide

theorem claim_C7_witness :
    (Cursor.current_line ⟨[JV.object [("a", JV.number 1)]], 0,
        [CursorFrame.Object 0 "a" [("a", JV.number 1)] []], JV.number 1,
        FocusPosition.Value⟩ []).key = some "a" := by
  have h := (claim_C7 ⟨[JV.object [("a", JV.number 1)]], 0,
      [CursorFrame.Object 0 "a" [("a", JV.number 1)] []], JV.number 1,
      FocusPosition.Value⟩ [] (by decide)).2.2.2.2.2.2.1
  rw [h]
  decide

/-- The concrete scenario roots of C8: the single root
`{"a": 1, "b": [2, 3]}`. -/
def scenarioRoots : List JV :=
  [JV.object [("a", JV.number 1), ("b", JV.array [JV.number 2, JV.number 3])]]

/-- The cursor produced by `Cursor::new` on the scenario roots. -/
def scenarioStart : Cursor :=
  ⟨scenarioRoots, 0, [], JV.object [("a", JV.number 1),
    ("b", JV.array [JV.number 2, JV.number 3])], FocusPosition.Start⟩

/-- C8 (amended): on the root `{"a": 1, "b": [2, 3]}` with no folds,
repeated `advance` renders the seven content tags ObjectStart,
Number(key "a"), ArrayStart(key "b"), Number, Number, ArrayEnd, ObjectEnd.
With the fold key of the array at key "b" inserted it renders only FOUR
lines — ObjectStart, Number(key "a"), ArrayStart(folded, key "b"),
ObjectEnd — the folded array's own ArrayEnd line is not rendered (the
folded container occupies a single line), not the five lines the claim
expects. -/
theorem claim_C8 :
    Cursor.new scenarioRoots = some scenarioStart
    ∧ foldsOk scenarioRoots [(0, [1])]
    ∧ (linesFrom scenarioStart [] 10).map Line.content =
      [LineContent.ObjectStart 0, LineContent.Number 1,
       LineContent.ArrayStart 0, LineContent.Number 2, LineContent.Number 3,
       LineContent.ArrayEnd 0, LineContent.ObjectEnd 0]
    ∧ (linesFrom scenarioStart [] 10).map Line.key =
      [none, some "a", some "b", none, none, none, none]
    ∧ (linesFrom scenarioStart [(0, [1])] 10).map Line.content =
      [LineContent.ObjectStart 0, LineContent.Number 1,
       LineContent.ArrayStart 0, LineContent.ObjectEnd 0]
    ∧ (linesFrom scenarioStart [(0, [1])] 10).map Line.key =
      [none, some "a", some "b", none]
    ∧ (linesFrom scenarioStart [(0, [1])] 10).map Line.folded =
      [false, false, true, false] := by decide

/-- C8 counterexample: with the array at key "b" folded, the traversal
renders 4 lines, not the claimed 5, and the rendered tag sequence is not
the claimed ObjectStart, Number, ArrayStart, ArrayEnd, ObjectEnd. -/
theorem claim_C8_counterexample :
    (linesFrom scenarioStart [(0, [1])] 10).length = 4
    ∧ (linesFrom scenarioStart [(0, [1])] 10).map Line.content ≠
      [LineContent.ObjectStart 0, LineContent.Number 1,
       LineContent.ArrayStart 0, LineContent.ArrayEnd 0,
       LineContent.ObjectEnd 0] := by decide

end Jed
